import Mathlib

/-!
Verification of the indicator / regime-classification engine of the
iron-condor dashboard (`src/app.py`).

Modelling conventions, shared by all definitions below:

* A pandas float `Series` is a `List (Option ℚ)` aligned with the bar index;
  `none` plays the role of `NaN` (pandas uses `NaN` both for missing data and
  for the result of `0/0`).  Exact rational arithmetic stands in for IEEE
  doubles.
* IEEE division is modelled by `ediv`, which returns `none` when the divisor
  is zero.  This is exactly pandas' behaviour for `0/0` (`NaN`); a nonzero
  numerator over a zero divisor would give `±inf` in pandas, which `Option ℚ`
  cannot represent.  Every theorem below that touches a zero divisor carries
  the bar invariant (`BarInv`), under which the numerator is provably zero
  whenever the divisor is, so the model and pandas agree on all inputs the
  theorems speak about.
* `rolling(w)` aggregations follow pandas' `min_periods = window` semantics:
  the output at index `i` is defined iff the window `[i-w+1, i]` holds at
  least `w` non-`NaN` observations, and aggregates exactly those observations.
* `rollingStdSq` models `.rolling(w).std()` (sample standard deviation,
  `ddof = 1`) composed with the strictly monotone map `x ↦ x²`: the stored
  payload is the sample variance, because `√` leaves `ℚ`.  Definedness — the
  only aspect of this series any theorem below inspects — is preserved
  exactly; no theorem looks at the numeric payload of a rolling-std value.
-/

set_option maxRecDepth 8192

namespace App

/-- One OHLC bar (`src/app.py` rows of the fetched dataframe).
`opn` stands for the `Open` column (`open` is a Lean keyword). -/
structure Bar where
  ts : Int
  opn : ℚ
  high : ℚ
  low : ℚ
  close : ℚ
deriving DecidableEq

/-- The data-model invariant on bars: `low ≤ open, close ≤ high` (spec §3). -/
def BarInv (bars : List Bar) : Prop :=
  ∀ b ∈ bars, b.low ≤ b.opn ∧ b.opn ≤ b.high ∧ b.low ≤ b.close ∧ b.close ≤ b.high

instance (bars : List Bar) : Decidable (BarInv bars) := by
  unfold BarInv; infer_instance

def highs (bars : List Bar) : List ℚ := bars.map Bar.high

def lows (bars : List Bar) : List ℚ := bars.map Bar.low

def closes (bars : List Bar) : List ℚ := bars.map Bar.close

/-- Positional lookup with an explicit default (total version of `l[i]`). -/
def nthD {α : Type} (d : α) : List α → ℕ → α
  | [], _ => d
  | a :: _, 0 => a
  | _ :: t, n + 1 => nthD d t n

/-- The value of a pandas series at position `i` (`NaN`, i.e. `none`,
out of range). -/
def nth (s : List (Option ℚ)) (i : ℕ) : Option ℚ := nthD none s i

def shiftGo (prev : ℚ) : List ℚ → List (Option ℚ)
  | [] => []
  | x :: xs => some prev :: shiftGo x xs

/-- `Series.shift(1)`: position `i` holds the value at `i - 1`; `NaN` at 0. -/
def shift1 : List ℚ → List (Option ℚ)
  | [] => []
  | x :: xs => none :: shiftGo x xs

/-- `Series.diff()`: position `i` holds `s[i] - s[i-1]`; `NaN` at 0. -/
def diff1 (s : List ℚ) : List (Option ℚ) :=
  List.zipWith (fun p x => p.map fun a => x - a) (shift1 s) s

/-- Row-wise maximum of two possibly-`NaN` cells with pandas' `skipna=True`. -/
def omax2 : Option ℚ → Option ℚ → Option ℚ
  | none, b => b
  | some a, none => some a
  | some a, some b => some (max a b)

/-- One row of `true_range`: `max((h-l).abs, (h-pc).abs, (l-pc).abs)` with
`skipna` row maximum, `pc` being the shifted previous close. -/
def trRow (h l : ℚ) (pc : Option ℚ) : Option ℚ :=
  omax2 (some |h - l|) (omax2 (pc.map fun c => |h - c|) (pc.map fun c => |l - c|))

def zipWith3 {α β γ δ : Type} (f : α → β → γ → δ) : List α → List β → List γ → List δ
  | a :: as, b :: bs, c :: cs => f a b c :: zipWith3 f as bs cs
  | _, _, _ => []

/-- `true_range(high, low, close)` of `src/app.py` (lines 82–87):
row-wise skipna-max of `(high-low).abs()`, `(high-prev_close).abs()`,
`(low-prev_close).abs()`. -/
def true_range (high low close : List ℚ) : List (Option ℚ) :=
  zipWith3 trRow high low (shift1 close)

/-- The slice of the series a `rolling(w)` aggregation sees at index `i`. -/
def windowSlice (w : ℕ) (s : List (Option ℚ)) (i : ℕ) : List (Option ℚ) :=
  (s.take (i + 1)).drop (i + 1 - w)

/-- The non-`NaN` observations in the rolling window at index `i`. -/
def obsOf (w : ℕ) (s : List (Option ℚ)) (i : ℕ) : List ℚ :=
  (windowSlice w s i).filterMap id

/-- `rolling(w).sum()` at one index (pandas `min_periods = w`). -/
def rollingSumAt (w : ℕ) (s : List (Option ℚ)) (i : ℕ) : Option ℚ :=
  if w ≤ (obsOf w s i).length then some (obsOf w s i).sum else none

def rollingSum (w : ℕ) (s : List (Option ℚ)) : List (Option ℚ) :=
  (List.range s.length).map (rollingSumAt w s)

/-- `rolling(w).mean()` at one index: mean of the non-`NaN` observations. -/
def rollingMeanAt (w : ℕ) (s : List (Option ℚ)) (i : ℕ) : Option ℚ :=
  if w ≤ (obsOf w s i).length then
    some ((obsOf w s i).sum / ((obsOf w s i).length : ℚ))
  else none

def rollingMean (w : ℕ) (s : List (Option ℚ)) : List (Option ℚ) :=
  (List.range s.length).map (rollingMeanAt w s)

/-- Sample variance (`ddof = 1`), the square of pandas' `Series.std`. -/
def sampleVar (l : List ℚ) : ℚ :=
  ((l.map fun x => (x - l.sum / (l.length : ℚ)) ^ 2).sum) / ((l.length : ℚ) - 1)

/-- `rolling(w).std()` recoded through the strictly monotone square map
(see the file header): the payload is the sample variance. -/
def rollingStdSqAt (w : ℕ) (s : List (Option ℚ)) (i : ℕ) : Option ℚ :=
  if w ≤ (obsOf w s i).length then some (sampleVar (obsOf w s i)) else none

def rollingStdSq (w : ℕ) (s : List (Option ℚ)) : List (Option ℚ) :=
  (List.range s.length).map (rollingStdSqAt w s)

/-- `Series.pct_change()`: `s[i]/s[i-1] - 1`, `NaN` at index 0.  A zero
previous value would give `±inf`/`NaN` in IEEE; modelled as `none`, and every
theorem relying on a defined return assumes nonzero closes. -/
def pct_change (s : List ℚ) : List (Option ℚ) :=
  List.zipWith (fun p x => p.bind fun a => if a = 0 then none else some (x / a - 1))
    (shift1 s) s

/-- `realized_vol(close, window, ann_factor)` of `src/app.py` (lines 78–80):
`close.pct_change().rolling(window).std() * sqrt(ann_factor)`, recoded through
the square map (payload = variance × ann_factor; definedness exact). -/
def realized_vol (close : List ℚ) (window : ℕ) (ann_factor : ℚ) : List (Option ℚ) :=
  (rollingStdSq window (pct_change close)).map (Option.map fun v => v * ann_factor)

/-- `atr(high, low, close, window)` of `src/app.py` (lines 89–90). -/
def atr (high low close : List ℚ) (window : ℕ) : List (Option ℚ) :=
  rollingMean window (true_range high low close)

/-- IEEE-style division of two possibly-`NaN` cells; `none` on a zero
divisor (see the file header for the `±inf` caveat). -/
def ediv : Option ℚ → Option ℚ → Option ℚ
  | some a, some b => if b = 0 then none else some (a / b)
  | _, _ => none

def osub : Option ℚ → Option ℚ → Option ℚ
  | some a, some b => some (a - b)
  | _, _ => none

def oadd : Option ℚ → Option ℚ → Option ℚ
  | some a, some b => some (a + b)
  | _, _ => none

/-- `up_move = high.diff()` (line 93). -/
def up_move (high : List ℚ) : List (Option ℚ) := diff1 high

/-- `down_move = -low.diff()` (line 94). -/
def down_move (low : List ℚ) : List (Option ℚ) :=
  (diff1 low).map (Option.map fun x => -x)

/-- `plus_dm = np.where((up_move > down_move) & (up_move > 0), up_move, 0.0)`
(line 96); a comparison involving `NaN` is `False`, so `np.where` yields a
fully defined float array. -/
def plus_dm (high low : List ℚ) : List ℚ :=
  List.zipWith
    (fun u d =>
      match u, d with
      | some u, some d => if u > d ∧ u > 0 then u else 0
      | _, _ => 0)
    (up_move high) (down_move low)

/-- `minus_dm = np.where((down_move > up_move) & (down_move > 0), down_move, 0.0)`
(line 97). -/
def minus_dm (high low : List ℚ) : List ℚ :=
  List.zipWith
    (fun u d =>
      match u, d with
      | some u, some d => if d > u ∧ d > 0 then d else 0
      | _, _ => 0)
    (up_move high) (down_move low)

/-- `tr_n = tr.rolling(window).sum()` (line 100). -/
def tr_n (high low close : List ℚ) (window : ℕ) : List (Option ℚ) :=
  rollingSum window (true_range high low close)

/-- `plus_dm_n = plus_dm.rolling(window).sum()` (line 101). -/
def plus_dm_n (high low : List ℚ) (window : ℕ) : List (Option ℚ) :=
  rollingSum window ((plus_dm high low).map some)

/-- `minus_dm_n = minus_dm.rolling(window).sum()` (line 102). -/
def minus_dm_n (high low : List ℚ) (window : ℕ) : List (Option ℚ) :=
  rollingSum window ((minus_dm high low).map some)

/-- `plus_di = 100 * (plus_dm_n / tr_n)` (line 104). -/
def plus_di (high low close : List ℚ) (window : ℕ) : List (Option ℚ) :=
  List.zipWith (fun a b => (ediv a b).map fun q => 100 * q)
    (plus_dm_n high low window) (tr_n high low close window)

/-- `minus_di = 100 * (minus_dm_n / tr_n)` (line 105). -/
def minus_di (high low close : List ℚ) (window : ℕ) : List (Option ℚ) :=
  List.zipWith (fun a b => (ediv a b).map fun q => 100 * q)
    (minus_dm_n high low window) (tr_n high low close window)

/-- `dx = 100 * (plus_di - minus_di).abs() / (plus_di + minus_di)` (line 107). -/
def dxSeries (high low close : List ℚ) (window : ℕ) : List (Option ℚ) :=
  List.zipWith (fun a b => (ediv ((osub a b).map abs) (oadd a b)).map fun q => 100 * q)
    (plus_di high low close window) (minus_di high low close window)

/-- `adx(high, low, close, window)` of `src/app.py` (lines 92–108):
`dx.rolling(window).mean()`. -/
def adx (high low close : List ℚ) (window : ℕ) : List (Option ℚ) :=
  rollingMean window (dxSeries high low close window)

/-- The regressor `np.arange(len(y))` cast to rationals. -/
def idxs (y : List ℚ) : List ℚ := (List.range y.length).map fun i : ℕ => (i : ℚ)

/-- Closed form (normal equations) of the degree-1 least-squares coefficient
computed by `np.polyfit(x, y, 1)[0]` with `x = 0..n-1` (line 119). -/
def olsSlope (y : List ℚ) : ℚ :=
  ((y.length : ℚ) * (((idxs y).zip y).map fun p => p.1 * p.2).sum
      - (idxs y).sum * y.sum) /
    ((y.length : ℚ) * ((idxs y).map fun x => x * x).sum
      - (idxs y).sum * (idxs y).sum)

/-- The spec's phrasing of the same quantity (§4.1 `linear_slope`): the
ordinary-least-squares slope `Σ(x-x̄)(y-ȳ) / Σ(x-x̄)²` against `x = 0..n-1`;
kept separate so the two can be compared. -/
def olsSlopeSpec (y : List ℚ) : ℚ :=
  (((idxs y).zip y).map fun p =>
      (p.1 - (idxs y).sum / (y.length : ℚ)) * (p.2 - y.sum / (y.length : ℚ))).sum /
    ((idxs y).map fun x => (x - (idxs y).sum / (y.length : ℚ)) ^ 2).sum

/-- `slope(series, lookback)` of `src/app.py` (lines 110–120):
`series.dropna().tail(lookback)`, `NaN` when fewer than
`max(5, lookback // 2)` points survive, else the polyfit slope. -/
def slope (series : List (Option ℚ)) (lookback : ℕ) : Option ℚ :=
  let y := series.filterMap id
  let y2 := y.drop (y.length - lookback)
  if y2.length < max 5 (lookback / 2) then none
  else some (olsSlope y2)

/-- `np.isnan(m) or m >= 0` for an optional slope. -/
def slopeOkUp : Option ℚ → Bool
  | none => true
  | some m => 0 ≤ m

/-- `np.isnan(m) or m <= 0` for an optional slope. -/
def slopeOkDown : Option ℚ → Bool
  | none => true
  | some m => m ≤ 0

/-- `direction_label(start_close, end_close, ma_slope)` of `src/app.py`
(lines 122–132).  `ret = end/start - 1`; the model assumes a nonzero start
close wherever a theorem inspects the returned label. -/
def direction_label (start_close end_close ma_slope : Option ℚ) : String :=
  match start_close, end_close with
  | some s, some e =>
    if e / s - 1 > 1 / 100 ∧ slopeOkUp ma_slope then "Direction: Up"
    else if e / s - 1 < -(1 / 100) ∧ slopeOkDown ma_slope then "Direction: Down"
    else "Direction: Sideways / Mixed"
  | _, _ => "Direction: —"

/-- `trend_strength_label(adx_val)` of `src/app.py` (lines 134–141). -/
def trend_strength_label (adx_val : Option ℚ) : String :=
  match adx_val with
  | none => "Trend strength: —"
  | some v =>
    if v ≥ 25 then "Trend strength: Strong"
    else if v ≥ 18 then "Trend strength: Medium"
    else "Trend strength: Weak"

/-- The trend-direction decision table exactly as claim C4 words it
(`Up` iff `close > MA ∧ slope ≥ 0`; `Down` iff `close < MA ∧ slope ≤ 0`;
else `Sideways`), kept for comparison with `direction_label`. -/
def claimedDirection (close ma slp : ℚ) : String :=
  if close > ma ∧ 0 ≤ slp then "Direction: Up"
  else if close < ma ∧ slp ≤ 0 then "Direction: Down"
  else "Direction: Sideways / Mixed"

/-- Left-join lookup of the VIX close at a bar's timestamp
(`pd.merge(nifty, vix, on="Date", how="left")`, lines 162–167; an empty
proxy frame yields an all-`NaN` column). -/
def vixLookup (vix : List (Int × ℚ)) (t : Int) : Option ℚ :=
  (vix.find? fun p => p.1 = t).map Prod.snd

/-- The merged `Vix` column. -/
def vixCol (bars : List Bar) (vix : List (Int × ℚ)) : List (Option ℚ) :=
  bars.map fun b => vixLookup vix b.ts

/-- `df["Ma20"] = df["Close"].rolling(20).mean()` (line 170). -/
def ma20Col (bars : List Bar) : List (Option ℚ) :=
  rollingMean 20 ((closes bars).map some)

/-- `df["Ma50"]` (line 171). -/
def ma50Col (bars : List Bar) : List (Option ℚ) :=
  rollingMean 50 ((closes bars).map some)

/-- `df["Ma200"]` (line 172). -/
def ma200Col (bars : List Bar) : List (Option ℚ) :=
  rollingMean 200 ((closes bars).map some)

/-- `df["Adx14"]` (line 174). -/
def adx14Col (bars : List Bar) : List (Option ℚ) :=
  adx (highs bars) (lows bars) (closes bars) 14

/-- `df["Rv20"] = realized_vol(df["Close"], 20)` (line 175). -/
def rv20Col (bars : List Bar) : List (Option ℚ) :=
  realized_vol (closes bars) 20 252

/-- `df["Atr14"]` (line 176). -/
def atr14Col (bars : List Bar) : List (Option ℚ) :=
  atr (highs bars) (lows bars) (closes bars) 14

/-- `df["Atr_pct"] = df["Atr14"] / df["Close"]` (line 177) — note: no `× 100`
in the stored column. -/
def atrPctCol (bars : List Bar) : List (Option ℚ) :=
  List.zipWith ediv (atr14Col bars) ((closes bars).map some)

/-- `df["Iv_proxy"] = df["Vix"] / 100.0` (line 179). -/
def ivProxyCol (bars : List Bar) (vix : List (Int × ℚ)) : List (Option ℚ) :=
  (vixCol bars vix).map (Option.map fun v => v / 100)

/-- `df["Iv_minus_rv20"] = df["Iv_proxy"] - df["Rv20"]` (line 180). -/
def ivMinusRv20Col (bars : List Bar) (vix : List (Int × ℚ)) : List (Option ℚ) :=
  List.zipWith osub (ivProxyCol bars vix) (rv20Col bars)

/-! ### Generic list lemmas for the positional accessors -/

theorem nthD_eq_getElem {α : Type} (d : α) (l : List α) (i : ℕ) (h : i < l.length) :
    nthD d l i = l[i] := by
  induction l generalizing i with
  | nil => simp at h
  | cons a t ih =>
    cases i with
    | zero => rfl
    | succ n => simpa [nthD] using ih n (by simpa using h)

theorem nthD_eq_default {α : Type} (d : α) (l : List α) (i : ℕ) (h : l.length ≤ i) :
    nthD d l i = d := by
  induction l generalizing i with
  | nil => cases i <;> rfl
  | cons a t ih =>
    cases i with
    | zero => simp at h
    | succ n => simpa [nthD] using ih n (by simpa using h)

theorem nthD_mem {α : Type} (d : α) (l : List α) (i : ℕ) (h : i < l.length) :
    nthD d l i ∈ l := by
  rw [nthD_eq_getElem d l i h]
  exact List.getElem_mem h

theorem nthD_map {α β : Type} (d : α) (e : β) (f : α → β) (l : List α) (i : ℕ)
    (h : i < l.length) :
    nthD e (l.map f) i = f (nthD d l i) := by
  rw [nthD_eq_getElem e _ i (by simpa using h), nthD_eq_getElem d l i h]
  simp

theorem nthD_zipWith {α β γ : Type} (da : α) (db : β) (dc : γ) (f : α → β → γ)
    (as : List α) (bs : List β) (i : ℕ) (ha : i < as.length) (hb : i < bs.length) :
    nthD dc (List.zipWith f as bs) i = f (nthD da as i) (nthD db bs i) := by
  induction as generalizing bs i with
  | nil => simp at ha
  | cons a t ih =>
    cases bs with
    | nil => simp at hb
    | cons b u =>
      cases i with
      | zero => rfl
      | succ n =>
        simpa [nthD] using ih u n (by simpa using ha) (by simpa using hb)

theorem length_zipWith3 {α β γ δ : Type} (f : α → β → γ → δ)
    (as : List α) (bs : List β) (cs : List γ) :
    (zipWith3 f as bs cs).length = min (min as.length bs.length) cs.length := by
  induction as generalizing bs cs with
  | nil => simp [zipWith3]
  | cons a t ih =>
    cases bs with
    | nil => simp [zipWith3]
    | cons b u =>
      cases cs with
      | nil => simp [zipWith3]
      | cons c v => simp [zipWith3, ih u v]; omega

theorem nthD_zipWith3 {α β γ δ : Type} (da : α) (db : β) (dc : γ) (dd : δ)
    (f : α → β → γ → δ) (as : List α) (bs : List β) (cs : List γ) (i : ℕ)
    (ha : i < as.length) (hb : i < bs.length) (hc : i < cs.length) :
    nthD dd (zipWith3 f as bs cs) i = f (nthD da as i) (nthD db bs i) (nthD dc cs i) := by
  induction as generalizing bs cs i with
  | nil => simp at ha
  | cons a t ih =>
    cases bs with
    | nil => simp at hb
    | cons b u =>
      cases cs with
      | nil => simp at hc
      | cons c v =>
        cases i with
        | zero => rfl
        | succ n =>
          simpa [zipWith3, nthD] using
            ih u v n (by simpa using ha) (by simpa using hb) (by simpa using hc)

theorem mem_zipWith3 {α β γ δ : Type} (f : α → β → γ → δ)
    (as : List α) (bs : List β) (cs : List γ) :
    ∀ x ∈ zipWith3 f as bs cs, ∃ a ∈ as, ∃ b ∈ bs, ∃ c ∈ cs, x = f a b c := by
  induction as generalizing bs cs with
  | nil => intro x hx; simp [zipWith3] at hx
  | cons a t ih =>
    cases bs with
    | nil => intro x hx; simp [zipWith3] at hx
    | cons b u =>
      cases cs with
      | nil => intro x hx; simp [zipWith3] at hx
      | cons c v =>
        intro x hx
        rcases (by simpa [zipWith3] using hx : x = f a b c ∨ x ∈ zipWith3 f t u v) with h | h
        · exact ⟨a, by simp, b, by simp, c, by simp, h⟩
        · obtain ⟨a', ha', b', hb', c', hc', hx'⟩ := ih u v x h
          exact ⟨a', by simp [ha'], b', by simp [hb'], c', by simp [hc'], hx'⟩

theorem mem_zipWith_pair {α β γ : Type} (f : α → β → γ) (as : List α) (bs : List β) :
    ∀ x ∈ List.zipWith f as bs, ∃ a ∈ as, ∃ b ∈ bs, x = f a b := by
  induction as generalizing bs with
  | nil => intro x hx; simp at hx
  | cons a t ih =>
    cases bs with
    | nil => intro x hx; simp at hx
    | cons b u =>
      intro x hx
      rcases (by simpa using hx : x = f a b ∨ x ∈ List.zipWith f t u) with h | h
      · exact ⟨a, by simp, b, by simp, h⟩
      · obtain ⟨a', ha', b', hb', hx'⟩ := ih u x h
        exact ⟨a', by simp [ha'], b', by simp [hb'], hx'⟩

theorem length_shiftGo (prev : ℚ) (s : List ℚ) : (shiftGo prev s).length = s.length := by
  induction s generalizing prev with
  | nil => rfl
  | cons x xs ih => simpa [shiftGo] using ih x

theorem length_shift1 (s : List ℚ) : (shift1 s).length = s.length := by
  cases s with
  | nil => rfl
  | cons x xs => simpa [shift1] using length_shiftGo x xs

theorem nth_shift1_zero (s : List ℚ) (h : s ≠ []) : nth (shift1 s) 0 = none := by
  cases s with
  | nil => simp at h
  | cons x xs => rfl

theorem nthD_shiftGo (prev : ℚ) (s : List ℚ) (i : ℕ) (h : i < s.length) :
    nthD none (shiftGo prev s) i = some (nthD 0 (prev :: s) i) := by
  induction s generalizing prev i with
  | nil => simp at h
  | cons x xs ih =>
    cases i with
    | zero => rfl
    | succ n => simpa [shiftGo, nthD] using ih x n (by simpa using h)

theorem nth_shift1_succ (s : List ℚ) (i : ℕ) (h : i + 1 < s.length) :
    nth (shift1 s) (i + 1) = some (nthD 0 s i) := by
  cases s with
  | nil => simp at h
  | cons x xs =>
    have := nthD_shiftGo x xs i (by simpa using h)
    simpa [shift1, nth, nthD] using this

/-! ### filterMap id lemmas -/

theorem filterMap_length_le (l : List (Option ℚ)) : (l.filterMap id).length ≤ l.length := by
  induction l with
  | nil => simp
  | cons a t ih => cases a <;> simp [List.filterMap_cons] <;> omega

theorem filterMap_length_of_all_some (l : List (Option ℚ))
    (h : ∀ o ∈ l, o.isSome) : (l.filterMap id).length = l.length := by
  induction l with
  | nil => simp
  | cons a t ih =>
    cases a with
    | none => exact absurd (h none (by simp)) (by simp)
    | some x =>
      simp only [List.filterMap_cons, id, List.length_cons]
      rw [ih fun o ho => h o (by simp [ho])]

theorem all_some_of_filterMap_length (l : List (Option ℚ))
    (h : l.length ≤ (l.filterMap id).length) : ∀ o ∈ l, o.isSome := by
  induction l with
  | nil => simp
  | cons a t ih =>
    cases a with
    | none =>
      exfalso
      have := filterMap_length_le t
      simp [List.filterMap_cons] at h
      omega
    | some x =>
      intro o ho
      rcases (by simpa using ho : o = some x ∨ o ∈ t) with h' | h'
      · simp [h']
      · exact ih (by simpa [List.filterMap_cons] using h) o h'

theorem filterMap_length_lt_of_none (l : List (Option ℚ)) (h : none ∈ l) :
    (l.filterMap id).length < l.length := by
  induction l with
  | nil => simp at h
  | cons a t ih =>
    cases a with
    | none =>
      have := filterMap_length_le t
      simp [List.filterMap_cons]
      omega
    | some x =>
      have ht : none ∈ t := by simpa using h
      simpa [List.filterMap_cons] using ih ht

theorem sum_eq_zero_of_nonneg (l : List ℚ) (hnn : ∀ x ∈ l, 0 ≤ x) (hs : l.sum = 0) :
    ∀ x ∈ l, x = 0 := by
  induction l with
  | nil => simp
  | cons a t ih =>
    have hnt : ∀ x ∈ t, 0 ≤ x := fun x hx => hnn x (by simp [hx])
    have hts : 0 ≤ t.sum := List.sum_nonneg hnt
    have ha : 0 ≤ a := hnn a (by simp)
    have has : a = 0 ∧ t.sum = 0 := by
      constructor <;> [skip; skip] <;> simp [List.sum_cons] at hs <;> linarith
    intro x hx
    rcases (by simpa using hx : x = a ∨ x ∈ t) with h' | h'
    · simpa [h'] using has.1
    · exact ih hnt has.2 x h'

/-! ### Rolling-window lemmas -/

theorem nthD_range_map {α : Type} (d : α) (f : ℕ → α) (n i : ℕ) (h : i < n) :
    nthD d ((List.range n).map f) i = f i := by
  rw [nthD_eq_getElem d _ i (by simpa using h)]
  simp

theorem length_rollingSum (w : ℕ) (s : List (Option ℚ)) :
    (rollingSum w s).length = s.length := by simp [rollingSum]

theorem length_rollingMean (w : ℕ) (s : List (Option ℚ)) :
    (rollingMean w s).length = s.length := by simp [rollingMean]

theorem length_rollingStdSq (w : ℕ) (s : List (Option ℚ)) :
    (rollingStdSq w s).length = s.length := by simp [rollingStdSq]

theorem nth_rollingSum (w : ℕ) (s : List (Option ℚ)) (i : ℕ) (h : i < s.length) :
    nth (rollingSum w s) i = rollingSumAt w s i :=
  nthD_range_map none (rollingSumAt w s) s.length i h

theorem nth_rollingMean (w : ℕ) (s : List (Option ℚ)) (i : ℕ) (h : i < s.length) :
    nth (rollingMean w s) i = rollingMeanAt w s i :=
  nthD_range_map none (rollingMeanAt w s) s.length i h

theorem nth_rollingStdSq (w : ℕ) (s : List (Option ℚ)) (i : ℕ) (h : i < s.length) :
    nth (rollingStdSq w s) i = rollingStdSqAt w s i :=
  nthD_range_map none (rollingStdSqAt w s) s.length i h

theorem windowSlice_length_eq (w : ℕ) (s : List (Option ℚ)) (i : ℕ) :
    (windowSlice w s i).length = min (i + 1) s.length - (i + 1 - w) := by
  simp [windowSlice]

theorem windowSlice_length_le (w : ℕ) (s : List (Option ℚ)) (i : ℕ) :
    (windowSlice w s i).length ≤ w := by
  rw [windowSlice_length_eq]; omega

theorem windowSlice_length_full (w : ℕ) (s : List (Option ℚ)) (i : ℕ)
    (hi : i < s.length) (hw : w ≤ i + 1) : (windowSlice w s i).length = w := by
  rw [windowSlice_length_eq]; omega

theorem obsOf_length_le (w : ℕ) (s : List (Option ℚ)) (i : ℕ) :
    (obsOf w s i).length ≤ w :=
  le_trans (filterMap_length_le _) (windowSlice_length_le w s i)

theorem mem_of_mem_windowSlice (w : ℕ) (s : List (Option ℚ)) (i : ℕ) :
    ∀ o ∈ windowSlice w s i, o ∈ s := fun _o ho =>
  List.mem_of_mem_take (List.mem_of_mem_drop ho)

theorem mem_of_mem_obsOf (w : ℕ) (s : List (Option ℚ)) (i : ℕ) :
    ∀ x ∈ obsOf w s i, some x ∈ s := by
  intro x hx
  obtain ⟨o, ho, ho'⟩ := List.mem_filterMap.mp hx
  rcases o with _ | v
  · simp [id] at ho'
  · have : v = x := by simpa [id] using ho'
    subst this
    exact mem_of_mem_windowSlice w s i _ ho

theorem nthD_windowSlice (w : ℕ) (s : List (Option ℚ)) (i k : ℕ)
    (hk : k < (windowSlice w s i).length) :
    nthD none (windowSlice w s i) k = nthD none s (i + 1 - w + k) := by
  have hlen := windowSlice_length_eq w s i
  have h1 : i + 1 - w + k < (s.take (i + 1)).length := by
    simp only [List.length_take]; omega
  have h2 : i + 1 - w + k < s.length := by
    have := List.length_take (i + 1) s; omega
  rw [nthD_eq_getElem none _ k hk, nthD_eq_getElem none s _ h2]
  simp [windowSlice]

/-- A rolling window over values that are all present at positions
`i+1-w .. i` has exactly `w` observations. -/
theorem obsOf_length_full (w : ℕ) (s : List (Option ℚ)) (i : ℕ)
    (hi : i < s.length) (hw : w ≤ i + 1)
    (hdef : ∀ j, i + 1 - w ≤ j → j ≤ i → (nth s j).isSome) :
    (obsOf w s i).length = w := by
  have hfull := windowSlice_length_full w s i hi hw
  have hall : ∀ o ∈ windowSlice w s i, o.isSome := by
    intro _o ho
    obtain ⟨k, hk, rfl⟩ := List.mem_iff_getElem.mp ho
    have := nthD_windowSlice w s i k hk
    rw [nthD_eq_getElem none _ k hk] at this
    rw [this]
    have : (nth s (i + 1 - w + k)).isSome := hdef _ (by omega) (by omega)
    · simpa [nth] using this
  have hlen : (obsOf w s i).length = (windowSlice w s i).length := by
    simpa [obsOf] using filterMap_length_of_all_some _ hall
  rw [hlen, hfull]

/-! ### Series lengths and pointwise values -/

def bar0 : Bar := ⟨0, 0, 0, 0, 0⟩

theorem length_highs (bars : List Bar) : (highs bars).length = bars.length := by
  simp [highs]

theorem length_lows (bars : List Bar) : (lows bars).length = bars.length := by
  simp [lows]

theorem length_closes (bars : List Bar) : (closes bars).length = bars.length := by
  simp [closes]

theorem length_diff1 (s : List ℚ) : (diff1 s).length = s.length := by
  simp [diff1, length_shift1]

theorem length_up_move (high : List ℚ) : (up_move high).length = high.length :=
  length_diff1 high

theorem length_down_move (low : List ℚ) : (down_move low).length = low.length := by
  simp [down_move, length_diff1]

theorem length_plus_dm (high low : List ℚ) :
    (plus_dm high low).length = min high.length low.length := by
  simp [plus_dm, length_up_move, length_down_move]

theorem length_minus_dm (high low : List ℚ) :
    (minus_dm high low).length = min high.length low.length := by
  simp [minus_dm, length_up_move, length_down_move]

theorem length_true_range (high low close : List ℚ) :
    (true_range high low close).length = min (min high.length low.length) close.length := by
  simp [true_range, length_zipWith3, length_shift1]

theorem nth_diff1_zero (s : List ℚ) (h : s ≠ []) : nth (diff1 s) 0 = none := by
  cases s with
  | nil => simp at h
  | cons x xs => rfl

theorem nth_diff1_succ (s : List ℚ) (k : ℕ) (h : k + 1 < s.length) :
    nth (diff1 s) (k + 1) = some (nthD 0 s (k + 1) - nthD 0 s k) := by
  have h1 : k + 1 < (shift1 s).length := by rw [length_shift1]; exact h
  have h0 := nthD_zipWith (none) (0 : ℚ) (none)
    (fun p x => p.map fun a => x - a) (shift1 s) s (k + 1) h1 h
  have h2 := nth_shift1_succ s k h
  rw [nth] at h2
  rw [nth, diff1, h0, h2]
  rfl

theorem nth_true_range (high low close : List ℚ) (i : ℕ)
    (h1 : i < high.length) (h2 : i < low.length) (h3 : i < close.length) :
    nth (true_range high low close) i
      = trRow (nthD 0 high i) (nthD 0 low i) (nth (shift1 close) i) := by
  have h3' : i < (shift1 close).length := by rw [length_shift1]; exact h3
  exact nthD_zipWith3 0 0 none none trRow high low (shift1 close) i h1 h2 h3'

theorem trRow_isSome (h l : ℚ) (pc : Option ℚ) : (trRow h l pc).isSome := by
  cases pc <;> simp [trRow, omax2]

theorem trRow_nonneg (h l : ℚ) (pc : Option ℚ) (x : ℚ) (hx : trRow h l pc = some x) :
    0 ≤ x := by
  cases pc with
  | none =>
    simp [trRow, omax2] at hx
    rw [← hx]; positivity
  | some c =>
    simp [trRow, omax2] at hx
    rw [← hx]
    have : (0 : ℚ) ≤ |h - l| := abs_nonneg _
    have : (0 : ℚ) ≤ |h - c| := abs_nonneg _
    exact le_trans (abs_nonneg (h - l)) (le_max_left _ _)

theorem true_range_mem_nonneg (high low close : List ℚ) :
    ∀ o ∈ true_range high low close, ∀ x, o = some x → 0 ≤ x := by
  intro o ho x hx
  obtain ⟨a, _, b, _, c, _, rfl⟩ := mem_zipWith3 trRow high low (shift1 close) o ho
  exact trRow_nonneg a b c x hx

theorem true_range_mem_isSome (high low close : List ℚ) :
    ∀ o ∈ true_range high low close, o.isSome := by
  intro o ho
  obtain ⟨a, _, b, _, c, _, rfl⟩ := mem_zipWith3 trRow high low (shift1 close) o ho
  exact trRow_isSome a b c

theorem plus_dm_mem_nonneg (high low : List ℚ) : ∀ x ∈ plus_dm high low, 0 ≤ x := by
  intro x hx
  obtain ⟨a, _, b, _, rfl⟩ := mem_zipWith_pair _ (up_move high) (down_move low) x hx
  rcases a with _ | u <;> rcases b with _ | d <;> simp
  split <;> rename_i hc
  · exact le_of_lt hc.2
  · exact le_refl 0

theorem minus_dm_mem_nonneg (high low : List ℚ) : ∀ x ∈ minus_dm high low, 0 ≤ x := by
  intro x hx
  obtain ⟨a, _, b, _, rfl⟩ := mem_zipWith_pair _ (up_move high) (down_move low) x hx
  rcases a with _ | u <;> rcases b with _ | d <;> simp
  split <;> rename_i hc
  · exact le_of_lt hc.2
  · exact le_refl 0

/-- Pointwise core of the ADX division-guard argument: under the bar
invariant, a zero True Range at an index forces both directional movements
at that index to be zero. -/
theorem dm_zero_of_tr_zero (bars : List Bar) (hinv : BarInv bars) (j : ℕ)
    (hj : j < bars.length)
    (htr : nth (true_range (highs bars) (lows bars) (closes bars)) j = some 0) :
    nthD 0 (plus_dm (highs bars) (lows bars)) j = 0 ∧
      nthD 0 (minus_dm (highs bars) (lows bars)) j = 0 := by
  have hh : j < (highs bars).length := by rw [length_highs]; exact hj
  have hl : j < (lows bars).length := by rw [length_lows]; exact hj
  have hu : j < (up_move (highs bars)).length := by rw [length_up_move]; exact hh
  have hd : j < (down_move (lows bars)).length := by rw [length_down_move]; exact hl
  have hpd := nthD_zipWith none none (0 : ℚ)
    (fun u d =>
      match u, d with
      | some u, some d => if u > d ∧ u > 0 then u else 0
      | _, _ => (0 : ℚ))
    (up_move (highs bars)) (down_move (lows bars)) j hu hd
  have hmd := nthD_zipWith none none (0 : ℚ)
    (fun u d =>
      match u, d with
      | some u, some d => if d > u ∧ d > 0 then d else 0
      | _, _ => (0 : ℚ))
    (up_move (highs bars)) (down_move (lows bars)) j hu hd
  cases j with
  | zero =>
    have hne : highs bars ≠ [] := by
      intro h; rw [h] at hh; simp at hh
    have hne2 : lows bars ≠ [] := by
      intro h; rw [h] at hl; simp at hl
    have hz1 : nth (up_move (highs bars)) 0 = none := nth_diff1_zero _ hne
    have hz2 : nthD none (down_move (lows bars)) 0 = none := by
      have : nth (diff1 (lows bars)) 0 = none := nth_diff1_zero _ hne2
      have h0 : (0 : ℕ) < (diff1 (lows bars)).length := by
        rw [length_diff1]; exact hl
      rw [down_move, nthD_map none none _ _ 0 h0]
      rw [nth] at this; rw [this]; rfl
    constructor
    · rw [plus_dm, hpd, (by exact hz1 : nthD none (up_move (highs bars)) 0 = none), hz2]
    · rw [minus_dm, hmd, (by exact hz1 : nthD none (up_move (highs bars)) 0 = none), hz2]
  | succ k =>
    have hc : k + 1 < (closes bars).length := by rw [length_closes]; exact hj
    have htr' := nth_true_range (highs bars) (lows bars) (closes bars) (k + 1) hh hl hc
    rw [htr'] at htr
    rw [nth_shift1_succ (closes bars) k hc] at htr
    set hq := nthD 0 (highs bars) (k + 1) with hhq
    set lq := nthD 0 (lows bars) (k + 1) with hlq
    set pc := nthD 0 (closes bars) k with hpc
    have hmax : max |hq - lq| (max |hq - pc| |lq - pc|) = 0 := by
      simpa [trRow, omax2] using htr
    have habs1 : |hq - pc| = 0 := by
      exact le_antisymm (by
        calc |hq - pc| ≤ max |hq - pc| |lq - pc| := le_max_left _ _
          _ ≤ max |hq - lq| (max |hq - pc| |lq - pc|) := le_max_right _ _
          _ = 0 := hmax) (abs_nonneg _)
    have habs2 : |lq - pc| = 0 := by
      exact le_antisymm (by
        calc |lq - pc| ≤ max |hq - pc| |lq - pc| := le_max_right _ _
          _ ≤ max |hq - lq| (max |hq - pc| |lq - pc|) := le_max_right _ _
          _ = 0 := hmax) (abs_nonneg _)
    have hqe : hq = pc := by
      have := abs_eq_zero.mp habs1; linarith
    have lqe : lq = pc := by
      have := abs_eq_zero.mp habs2; linarith
    have hbmem : bars[k] ∈ bars := List.getElem_mem (by omega)
    obtain ⟨hlo, _, hlc, hch⟩ := hinv bars[k] hbmem
    have hhk : nthD 0 (highs bars) k = bars[k].high := by
      rw [highs, nthD_map bar0 0 Bar.high bars k (by omega)]
      rw [nthD_eq_getElem bar0 bars k (by omega)]
    have hlk : nthD 0 (lows bars) k = bars[k].low := by
      rw [lows, nthD_map bar0 0 Bar.low bars k (by omega)]
      rw [nthD_eq_getElem bar0 bars k (by omega)]
    have hck : pc = bars[k].close := by
      rw [hpc, closes, nthD_map bar0 0 Bar.close bars k (by omega)]
      rw [nthD_eq_getElem bar0 bars k (by omega)]
    have hup : nthD none (up_move (highs bars)) (k + 1)
        = some (hq - nthD 0 (highs bars) k) := by
      have := nth_diff1_succ (highs bars) k hh
      rw [nth] at this; exact this
    have hdn : nthD none (down_move (lows bars)) (k + 1)
        = some (-(lq - nthD 0 (lows bars) k)) := by
      have h1 : k + 1 < (diff1 (lows bars)).length := by rw [length_diff1]; exact hl
      have := nth_diff1_succ (lows bars) k hl
      rw [nth] at this
      rw [down_move, nthD_map none none _ _ (k + 1) h1, this]
      rfl
    have hule : hq - nthD 0 (highs bars) k ≤ 0 := by
      rw [hqe, hck, hhk]; linarith
    have hdle : -(lq - nthD 0 (lows bars) k) ≤ 0 := by
      rw [lqe, hck, hlk]; linarith
    constructor
    · rw [plus_dm, hpd, hup, hdn]
      simp only []
      split <;> rename_i hcnd
      · exact absurd hcnd.2 (by linarith)
      · rfl
    · rw [minus_dm, hmd, hup, hdn]
      simp only []
      split <;> rename_i hcnd
      · exact absurd hcnd.2 (by linarith)
      · rfl

/-! ### Zero rolling sums -/

theorem nth_lt_of_ne_none (s : List (Option ℚ)) (i : ℕ) (h : nth s i ≠ none) :
    i < s.length := by
  by_contra hc
  exact h (nthD_eq_default none s i (by omega))

theorem filterMap_id_replicate (n : ℕ) (a : ℚ) :
    (List.replicate n (some a)).filterMap id = List.replicate n a := by
  induction n with
  | zero => simp
  | succ m ih => simp [List.replicate_succ, List.filterMap_cons, ih]

/-- A rolling sum of nonnegative, possibly-missing values equal to zero
means the window is entirely inside the series and every value in it is a
present zero. -/
theorem rollingSumAt_zero (w : ℕ) (s : List (Option ℚ)) (i : ℕ)
    (hi : i < s.length) (hnn : ∀ x : ℚ, some x ∈ s → 0 ≤ x)
    (h : rollingSumAt w s i = some 0) :
    w ≤ i + 1 ∧ ∀ j, i + 1 - w ≤ j → j ≤ i → nth s j = some 0 := by
  rw [rollingSumAt] at h
  split_ifs at h with hg
  have hsum : (obsOf w s i).sum = 0 := Option.some.inj h
  have hobs_slice : (obsOf w s i).length ≤ (windowSlice w s i).length :=
    filterMap_length_le _
  have hslice_w : (windowSlice w s i).length ≤ w := windowSlice_length_le w s i
  have hslice_eq : (windowSlice w s i).length = w := by omega
  have hobs_eq : (obsOf w s i).length = w := by omega
  have hwin := windowSlice_length_eq w s i
  have hw : w ≤ i + 1 := by omega
  refine ⟨hw, ?_⟩
  have hall : ∀ o ∈ windowSlice w s i, o.isSome :=
    all_some_of_filterMap_length _ (by
      have h2 : ((windowSlice w s i).filterMap id).length = w := hobs_eq
      omega)
  have hzero : ∀ x ∈ obsOf w s i, x = 0 :=
    sum_eq_zero_of_nonneg _ (fun x hx => hnn x (mem_of_mem_obsOf w s i x hx)) hsum
  intro j hj1 hj2
  have hk : j - (i + 1 - w) < (windowSlice w s i).length := by omega
  have hidx : i + 1 - w + (j - (i + 1 - w)) = j := by omega
  have hnthw := nthD_windowSlice w s i (j - (i + 1 - w)) hk
  rw [hidx] at hnthw
  have hmem : nthD none (windowSlice w s i) (j - (i + 1 - w)) ∈ windowSlice w s i :=
    nthD_mem none _ _ hk
  obtain ⟨v, hv⟩ := Option.isSome_iff_exists.mp (hall _ hmem)
  have hvobs : v ∈ obsOf w s i :=
    List.mem_filterMap.mpr ⟨_, hmem, by rw [hv]; rfl⟩
  have hv0 : v = 0 := hzero v hvobs
  rw [nth, ← hnthw, hv, hv0]

/-- Conversely, a window of present zeros sums (with pandas `min_periods`)
to a present zero. -/
theorem rollingSumAt_zero_out (w : ℕ) (t : List (Option ℚ)) (i : ℕ)
    (hi : i < t.length) (hw : w ≤ i + 1)
    (hpt : ∀ j, i + 1 - w ≤ j → j ≤ i → nth t j = some 0) :
    rollingSumAt w t i = some 0 := by
  have hslice : (windowSlice w t i).length = w := windowSlice_length_full w t i hi hw
  have hrep : windowSlice w t i = List.replicate w (some (0 : ℚ)) := by
    apply List.ext_getElem (by simp [hslice])
    intro k hk1 hk2
    have hk : k < (windowSlice w t i).length := hk1
    have := nthD_windowSlice w t i k hk
    rw [nthD_eq_getElem none _ k hk] at this
    have hj := hpt (i + 1 - w + k) (by omega) (by omega)
    rw [nth] at hj
    rw [this, hj]
    simp
  rw [rollingSumAt]
  have hobs : obsOf w t i = List.replicate w (0 : ℚ) := by
    have : obsOf w t i = (windowSlice w t i).filterMap id := rfl
    rw [this, hrep, filterMap_id_replicate]
  rw [hobs]
  simp

/-! ### Series lengths of the ADX pipeline over a bar list -/

theorem length_tr_n (bars : List Bar) (w : ℕ) :
    (tr_n (highs bars) (lows bars) (closes bars) w).length = bars.length := by
  simp [tr_n, length_rollingSum, length_true_range, length_highs, length_lows,
    length_closes]

theorem length_plus_dm_n (bars : List Bar) (w : ℕ) :
    (plus_dm_n (highs bars) (lows bars) w).length = bars.length := by
  simp [plus_dm_n, length_rollingSum, length_plus_dm, length_highs, length_lows]

theorem length_minus_dm_n (bars : List Bar) (w : ℕ) :
    (minus_dm_n (highs bars) (lows bars) w).length = bars.length := by
  simp [minus_dm_n, length_rollingSum, length_minus_dm, length_highs, length_lows]

theorem length_plus_di (bars : List Bar) (w : ℕ) :
    (plus_di (highs bars) (lows bars) (closes bars) w).length = bars.length := by
  simp [plus_di, length_plus_dm_n bars w, length_tr_n bars w]

theorem length_minus_di (bars : List Bar) (w : ℕ) :
    (minus_di (highs bars) (lows bars) (closes bars) w).length = bars.length := by
  simp [minus_di, length_minus_dm_n bars w, length_tr_n bars w]

theorem length_dxSeries (bars : List Bar) (w : ℕ) :
    (dxSeries (highs bars) (lows bars) (closes bars) w).length = bars.length := by
  simp [dxSeries, length_plus_di bars w, length_minus_di bars w]

/-- Under the bar invariant, a zero rolling True Range sum forces both
rolling directional-movement sums at the same index to be present zeros
(so the unguarded divisions in `adx` are `0/0`, pandas `NaN`). -/
theorem dm_n_zero_of_tr_n_zero (bars : List Bar) (hinv : BarInv bars) (w i : ℕ)
    (h : nth (tr_n (highs bars) (lows bars) (closes bars) w) i = some 0) :
    nth (plus_dm_n (highs bars) (lows bars) w) i = some 0 ∧
      nth (minus_dm_n (highs bars) (lows bars) w) i = some 0 := by
  have hi : i < bars.length := by
    have := nth_lt_of_ne_none _ i (by rw [h]; simp)
    rwa [length_tr_n] at this
  have hlenT : (true_range (highs bars) (lows bars) (closes bars)).length
      = bars.length := by
    simp [length_true_range, length_highs, length_lows, length_closes]
  have hiT : i < (true_range (highs bars) (lows bars) (closes bars)).length := by
    omega
  rw [tr_n, nth_rollingSum _ _ i hiT] at h
  have hz := rollingSumAt_zero w _ i hiT
    (fun x hx => true_range_mem_nonneg _ _ _ (some x) hx x rfl) h
  obtain ⟨hw, hpt⟩ := hz
  have hlenP : ((plus_dm (highs bars) (lows bars)).map some).length = bars.length := by
    simp [length_plus_dm, length_highs, length_lows]
  have hlenM : ((minus_dm (highs bars) (lows bars)).map some).length = bars.length := by
    simp [length_minus_dm, length_highs, length_lows]
  constructor
  · rw [plus_dm_n, nth_rollingSum _ _ i (by omega)]
    apply rollingSumAt_zero_out w _ i (by omega) hw
    intro j hj1 hj2
    have hjb : j < bars.length := by omega
    have hdm := (dm_zero_of_tr_zero bars hinv j hjb (hpt j hj1 hj2)).1
    have hjp : j < (plus_dm (highs bars) (lows bars)).length := by
      rw [length_plus_dm, length_highs, length_lows]; omega
    rw [nth, nthD_map 0 none some _ j hjp, hdm]
  · rw [minus_dm_n, nth_rollingSum _ _ i (by omega)]
    apply rollingSumAt_zero_out w _ i (by omega) hw
    intro j hj1 hj2
    have hjb : j < bars.length := by omega
    have hdm := (dm_zero_of_tr_zero bars hinv j hjb (hpt j hj1 hj2)).2
    have hjp : j < (minus_dm (highs bars) (lows bars)).length := by
      rw [length_minus_dm, length_highs, length_lows]; omega
    rw [nth, nthD_map 0 none some _ j hjp, hdm]

/-! ### Defined-value bounds along the ADX pipeline -/

theorem rollingSumAt_some_nonneg (w : ℕ) (s : List (Option ℚ)) (i : ℕ) (x : ℚ)
    (hnn : ∀ y : ℚ, some y ∈ s → 0 ≤ y) (h : rollingSumAt w s i = some x) : 0 ≤ x := by
  rw [rollingSumAt] at h
  split_ifs at h
  rw [← Option.some.inj h]
  exact List.sum_nonneg fun y hy => hnn y (mem_of_mem_obsOf w s i y hy)

theorem rollingSum_mem_nonneg (w : ℕ) (s : List (Option ℚ))
    (hnn : ∀ y : ℚ, some y ∈ s → 0 ≤ y) :
    ∀ o ∈ rollingSum w s, ∀ x, o = some x → 0 ≤ x := by
  intro o ho x hx
  obtain ⟨j, _, rfl⟩ := List.mem_map.mp ho
  exact rollingSumAt_some_nonneg w s j x hnn hx

theorem plus_dm_n_mem_nonneg (bars : List Bar) (w : ℕ) :
    ∀ o ∈ plus_dm_n (highs bars) (lows bars) w, ∀ x, o = some x → 0 ≤ x := by
  intro o ho x hx
  refine rollingSum_mem_nonneg w _ ?_ o ho x hx
  intro y hy
  obtain ⟨z, hz, hz'⟩ := List.mem_map.mp hy
  have : z = y := Option.some.inj hz'
  exact this ▸ plus_dm_mem_nonneg _ _ z hz

theorem minus_dm_n_mem_nonneg (bars : List Bar) (w : ℕ) :
    ∀ o ∈ minus_dm_n (highs bars) (lows bars) w, ∀ x, o = some x → 0 ≤ x := by
  intro o ho x hx
  refine rollingSum_mem_nonneg w _ ?_ o ho x hx
  intro y hy
  obtain ⟨z, hz, hz'⟩ := List.mem_map.mp hy
  have : z = y := Option.some.inj hz'
  exact this ▸ minus_dm_mem_nonneg _ _ z hz

theorem tr_n_mem_nonneg (bars : List Bar) (w : ℕ) :
    ∀ o ∈ tr_n (highs bars) (lows bars) (closes bars) w, ∀ x, o = some x → 0 ≤ x := by
  intro o ho x hx
  refine rollingSum_mem_nonneg w _ ?_ o ho x hx
  intro y hy
  exact true_range_mem_nonneg _ _ _ (some y) hy y rfl

theorem di_mem_nonneg (dmn trn : List (Option ℚ))
    (hdm : ∀ o ∈ dmn, ∀ x, o = some x → 0 ≤ x)
    (htr : ∀ o ∈ trn, ∀ x, o = some x → 0 ≤ x) :
    ∀ o ∈ List.zipWith (fun a b => (ediv a b).map fun q => 100 * q) dmn trn,
      ∀ x, o = some x → 0 ≤ x := by
  intro o ho x hx
  obtain ⟨a, ha, b, hb, rfl⟩ := mem_zipWith_pair _ dmn trn o ho
  rcases a with _ | av
  · simp [ediv] at hx
  rcases b with _ | bv
  · simp [ediv] at hx
  by_cases hbz : bv = 0
  · simp [ediv, hbz] at hx
  have hq : x = 100 * (av / bv) := by
    rw [ediv] at hx
    rw [if_neg hbz] at hx
    exact (Option.some.inj hx).symm
  have hav : 0 ≤ av := hdm (some av) ha av rfl
  have hbv : 0 ≤ bv := htr (some bv) hb bv rfl
  have hbp : 0 < bv := lt_of_le_of_ne hbv (Ne.symm hbz)
  rw [hq]
  positivity

theorem plus_di_mem_nonneg (bars : List Bar) (w : ℕ) :
    ∀ o ∈ plus_di (highs bars) (lows bars) (closes bars) w, ∀ x, o = some x → 0 ≤ x :=
  di_mem_nonneg _ _ (plus_dm_n_mem_nonneg bars w) (tr_n_mem_nonneg bars w)

theorem minus_di_mem_nonneg (bars : List Bar) (w : ℕ) :
    ∀ o ∈ minus_di (highs bars) (lows bars) (closes bars) w, ∀ x, o = some x → 0 ≤ x :=
  di_mem_nonneg _ _ (minus_dm_n_mem_nonneg bars w) (tr_n_mem_nonneg bars w)

/-- Every defined DX value is within `[0, 100]`: it is
`100·|a-b|/(a+b)` for nonnegative `a`, `b` with `a + b ≠ 0`. -/
theorem dxSeries_mem_bounds (bars : List Bar) (w : ℕ) :
    ∀ o ∈ dxSeries (highs bars) (lows bars) (closes bars) w,
      ∀ x, o = some x → 0 ≤ x ∧ x ≤ 100 := by
  intro o ho x hx
  obtain ⟨a, ha, b, hb, rfl⟩ :=
    mem_zipWith_pair _ (plus_di (highs bars) (lows bars) (closes bars) w)
      (minus_di (highs bars) (lows bars) (closes bars) w) o ho
  rcases a with _ | av
  · simp [osub, oadd, ediv] at hx
  rcases b with _ | bv
  · simp [osub, oadd, ediv] at hx
  by_cases hsz : av + bv = 0
  · simp [osub, oadd, ediv, hsz] at hx
  have hq : x = 100 * (|av - bv| / (av + bv)) := by
    rw [osub] at hx
    rw [oadd] at hx
    simp only [Option.map_some'] at hx
    rw [ediv] at hx
    rw [if_neg hsz] at hx
    exact (Option.some.inj hx).symm
  have hav : 0 ≤ av := plus_di_mem_nonneg bars w (some av) ha av rfl
  have hbv : 0 ≤ bv := minus_di_mem_nonneg bars w (some bv) hb bv rfl
  have hsp : 0 < av + bv := lt_of_le_of_ne (by linarith) (Ne.symm hsz)
  have habs : |av - bv| ≤ av + bv := abs_le.mpr ⟨by linarith, by linarith⟩
  constructor
  · rw [hq]; positivity
  · rw [hq]
    have hdiv : |av - bv| / (av + bv) ≤ 1 := (div_le_one hsp).mpr habs
    linarith

theorem length_adx (bars : List Bar) (w : ℕ) :
    (adx (highs bars) (lows bars) (closes bars) w).length = bars.length := by
  simp only [adx, length_rollingMean, length_dxSeries bars w]

/-- Claim C2: for every bar series satisfying the invariant
`low ≤ open, close ≤ high`, every defined value of the `ADX(14)` output
series lies in the closed interval `[0, 100]`. -/
theorem c2_adx_range (bars : List Bar) (hinv : BarInv bars) (i : ℕ) (v : ℚ)
    (h : nth (adx (highs bars) (lows bars) (closes bars) 14) i = some v) :
    0 ≤ v ∧ v ≤ 100 := by
  have hb := hinv
  clear hb
  have hi : i < bars.length := by
    have := nth_lt_of_ne_none _ i (by rw [h]; simp)
    rwa [length_adx] at this
  have hiD : i < (dxSeries (highs bars) (lows bars) (closes bars) 14).length := by
    rw [length_dxSeries]; omega
  rw [adx, nth_rollingMean _ _ i hiD] at h
  rw [rollingMeanAt] at h
  split_ifs at h with hg
  set obs := obsOf 14 (dxSeries (highs bars) (lows bars) (closes bars) 14) i with hobs
  have hlen : obs.length = 14 := le_antisymm (obsOf_length_le _ _ _) hg
  have hbnd : ∀ x ∈ obs, 0 ≤ x ∧ x ≤ 100 := by
    intro x hx
    exact dxSeries_mem_bounds bars 14 (some x)
      (mem_of_mem_obsOf _ _ _ x hx) x rfl
  have hsum0 : 0 ≤ obs.sum := List.sum_nonneg fun x hx => (hbnd x hx).1
  have hsum1 : obs.sum ≤ obs.length • (100 : ℚ) :=
    List.sum_le_card_nsmul obs 100 fun x hx => (hbnd x hx).2
  have hsum1' : obs.sum ≤ 1400 := by
    rw [hlen, nsmul_eq_mul] at hsum1
    push_cast at hsum1
    linarith
  have hv : v = obs.sum / ((obs.length : ℚ)) := (Option.some.inj h).symm
  rw [hv, hlen]
  have h14 : ((14 : ℕ) : ℚ) = 14 := by norm_num
  rw [h14]
  constructor
  · positivity
  · rw [div_le_iff₀ (by norm_num : (0:ℚ) < 14)]
    linarith

/-- Claim C1: in the `adx` computation over a bar series satisfying the data
model's bar invariant, (a) whenever the rolling True Range sum at an index is
zero, both rolling DM sums there are (present) zeros and `+DI`/`-DI` are not
yet computable (the unguarded division is pandas' `0/0 → NaN`, never a crash
or an infinity), and (b) whenever `+DI + -DI` is zero, `DX` at that index is
not yet computable. -/
theorem c1_adx_division_guards (bars : List Bar) (w : ℕ) (hinv : BarInv bars) (i : ℕ) :
    (nth (tr_n (highs bars) (lows bars) (closes bars) w) i = some 0 →
      nth (plus_dm_n (highs bars) (lows bars) w) i = some 0 ∧
      nth (minus_dm_n (highs bars) (lows bars) w) i = some 0 ∧
      nth (plus_di (highs bars) (lows bars) (closes bars) w) i = none ∧
      nth (minus_di (highs bars) (lows bars) (closes bars) w) i = none) ∧
    (∀ a b, nth (plus_di (highs bars) (lows bars) (closes bars) w) i = some a →
      nth (minus_di (highs bars) (lows bars) (closes bars) w) i = some b →
      a + b = 0 →
      nth (dxSeries (highs bars) (lows bars) (closes bars) w) i = none) := by
  constructor
  · intro htr
    have hi : i < bars.length := by
      have := nth_lt_of_ne_none _ i (by rw [htr]; simp)
      rwa [length_tr_n] at this
    obtain ⟨hp, hm⟩ := dm_n_zero_of_tr_n_zero bars hinv w i htr
    have h1 : i < (plus_dm_n (highs bars) (lows bars) w).length := by
      rw [length_plus_dm_n]; omega
    have h2 : i < (tr_n (highs bars) (lows bars) (closes bars) w).length := by
      rw [length_tr_n]; omega
    have h3 : i < (minus_dm_n (highs bars) (lows bars) w).length := by
      rw [length_minus_dm_n]; omega
    refine ⟨hp, hm, ?_, ?_⟩
    · rw [plus_di, nth,
        nthD_zipWith none none none _ _ _ i h1 h2]
      rw [nth] at hp htr
      rw [hp, htr]
      simp [ediv]
    · rw [minus_di, nth,
        nthD_zipWith none none none _ _ _ i h3 h2]
      rw [nth] at hm htr
      rw [hm, htr]
      simp [ediv]
  · intro a b ha hb hab
    have hi : i < bars.length := by
      have := nth_lt_of_ne_none _ i (by rw [ha]; simp)
      rwa [length_plus_di] at this
    have h1 : i < (plus_di (highs bars) (lows bars) (closes bars) w).length := by
      rw [length_plus_di]; omega
    have h2 : i < (minus_di (highs bars) (lows bars) (closes bars) w).length := by
      rw [length_minus_di]; omega
    rw [dxSeries, nth, nthD_zipWith none none none _ _ _ i h1 h2]
    rw [nth] at ha hb
    rw [ha, hb]
    simp [osub, oadd, ediv, hab]

/-- Fourteen flat bars (`high = low = close`): every True Range is zero, so
the rolling TR sum at index 13 is a present zero. -/
def barsFlat : List Bar := List.replicate 14 ⟨0, 5, 5, 5, 5⟩

/-- Fourteen identical bars with a positive range: the TR sum is positive but
both DM sums are zero, so `+DI = -DI = 0` and `+DI + -DI = 0`. -/
def barsRange : List Bar := List.replicate 14 ⟨0, 9, 10, 8, 9⟩

theorem c1_adx_division_guards_witness :
    BarInv barsFlat ∧ BarInv barsRange ∧
      nth (tr_n (highs barsFlat) (lows barsFlat) (closes barsFlat) 14) 13 = some 0 ∧
      nth (plus_di (highs barsFlat) (lows barsFlat) (closes barsFlat) 14) 13 = none ∧
      nth (minus_di (highs barsFlat) (lows barsFlat) (closes barsFlat) 14) 13 = none ∧
      nth (plus_di (highs barsRange) (lows barsRange) (closes barsRange) 14) 13 = some 0 ∧
      nth (minus_di (highs barsRange) (lows barsRange) (closes barsRange) 14) 13 = some 0 ∧
      nth (dxSeries (highs barsRange) (lows barsRange) (closes barsRange) 14) 13 = none := by
  have hflat : BarInv barsFlat := by with_unfolding_all decide
  have hrange : BarInv barsRange := by with_unfolding_all decide
  have htr : nth (tr_n (highs barsFlat) (lows barsFlat) (closes barsFlat) 14) 13
      = some 0 := by with_unfolding_all decide
  have hpdi : nth (plus_di (highs barsRange) (lows barsRange) (closes barsRange) 14) 13
      = some 0 := by with_unfolding_all decide
  have hmdi : nth (minus_di (highs barsRange) (lows barsRange) (closes barsRange) 14) 13
      = some 0 := by with_unfolding_all decide
  obtain ⟨_, _, hdi1, hdi2⟩ := (c1_adx_division_guards barsFlat 14 hflat 13).1 htr
  have hdx := (c1_adx_division_guards barsRange 14 hrange 13).2 0 0 hpdi hmdi
    (by norm_num)
  exact ⟨hflat, hrange, htr, hdi1, hdi2, hpdi, hmdi, hdx⟩

/-- Twenty-seven bars trending up by one per step with constant unit shape:
`ADX(14)` is defined (and equals 100) at the last index. -/
def barsUp : List Bar :=
  (List.range 27).map fun k : ℕ => ⟨(k : Int), 9 + (k : ℚ), 10 + (k : ℚ), 8 + (k : ℚ), 9 + (k : ℚ)⟩

theorem c2_adx_range_witness :
    BarInv barsUp ∧
      nth (adx (highs barsUp) (lows barsUp) (closes barsUp) 14) 26 = some 100 ∧
      (0 ≤ (100 : ℚ) ∧ (100 : ℚ) ≤ 100) := by
  have hinv : BarInv barsUp := by with_unfolding_all decide
  have hval : nth (adx (highs barsUp) (lows barsUp) (closes barsUp) 14) 26
      = some 100 := by with_unfolding_all decide
  exact ⟨hinv, hval, c2_adx_range barsUp hinv 26 100 hval⟩

/-! ### Bar-field accessors -/

theorem nthD_highs (bars : List Bar) (i : ℕ) (hi : i < bars.length) :
    nthD 0 (highs bars) i = (bars.get ⟨i, hi⟩).high := by
  rw [highs, nthD_map bar0 0 Bar.high bars i hi, nthD_eq_getElem bar0 bars i hi]
  simp

theorem nthD_lows (bars : List Bar) (i : ℕ) (hi : i < bars.length) :
    nthD 0 (lows bars) i = (bars.get ⟨i, hi⟩).low := by
  rw [lows, nthD_map bar0 0 Bar.low bars i hi, nthD_eq_getElem bar0 bars i hi]
  simp

theorem nthD_closes (bars : List Bar) (i : ℕ) (hi : i < bars.length) :
    nthD 0 (closes bars) i = (bars.get ⟨i, hi⟩).close := by
  rw [closes, nthD_map bar0 0 Bar.close bars i hi, nthD_eq_getElem bar0 bars i hi]
  simp

/-- Claim C3, corrected at index 0: over a bar series satisfying the
invariant, the True Range series equals the claimed
`max(high-low, |high-prev close|, |low-prev close|)` at every index `i ≥ 1`,
but at index 0 it is a present `high₀ - low₀` (pandas' skipna row-maximum
ignores the missing previous close), not "not yet computable". -/
theorem c3_true_range_values (bars : List Bar) (hinv : BarInv bars) :
    (∀ h0 : 0 < bars.length,
      nth (true_range (highs bars) (lows bars) (closes bars)) 0
        = some ((bars.get ⟨0, h0⟩).high - (bars.get ⟨0, h0⟩).low)) ∧
    (∀ i, ∀ hi : i < bars.length, 1 ≤ i →
      nth (true_range (highs bars) (lows bars) (closes bars)) i
        = some (max ((bars.get ⟨i, hi⟩).high - (bars.get ⟨i, hi⟩).low)
            (max |(bars.get ⟨i, hi⟩).high - (bars.get ⟨i - 1, by omega⟩).close|
              |(bars.get ⟨i, hi⟩).low - (bars.get ⟨i - 1, by omega⟩).close|))) := by
  constructor
  · intro h0
    have hh : 0 < (highs bars).length := by rw [length_highs]; exact h0
    have hl : 0 < (lows bars).length := by rw [length_lows]; exact h0
    have hc : 0 < (closes bars).length := by rw [length_closes]; exact h0
    have hne : closes bars ≠ [] := by
      intro h; rw [h] at hc; simp at hc
    rw [nth_true_range _ _ _ 0 hh hl hc, nth_shift1_zero _ hne]
    rw [nthD_highs bars 0 h0, nthD_lows bars 0 h0]
    have hb := hinv (bars.get ⟨0, h0⟩) (bars.get_mem _ _)
    obtain ⟨h1, h2, h3, h4⟩ := hb
    have : |(bars.get ⟨0, h0⟩).high - (bars.get ⟨0, h0⟩).low|
        = (bars.get ⟨0, h0⟩).high - (bars.get ⟨0, h0⟩).low :=
      abs_of_nonneg (by linarith)
    simp [trRow, omax2, this]
    exact le_trans h3 h4
  · intro i hi hge
    obtain ⟨k, rfl⟩ : ∃ k, i = k + 1 := ⟨i - 1, by omega⟩
    have hh : k + 1 < (highs bars).length := by rw [length_highs]; exact hi
    have hl : k + 1 < (lows bars).length := by rw [length_lows]; exact hi
    have hc : k + 1 < (closes bars).length := by rw [length_closes]; exact hi
    rw [nth_true_range _ _ _ (k + 1) hh hl hc, nth_shift1_succ _ k hc]
    rw [nthD_highs bars (k + 1) hi, nthD_lows bars (k + 1) hi]
    rw [nthD_closes bars k (by omega)]
    have hb := hinv (bars.get ⟨k + 1, hi⟩) (bars.get_mem _ _)
    obtain ⟨h1, h2, h3, h4⟩ := hb
    have habs : |(bars.get ⟨k + 1, hi⟩).high - (bars.get ⟨k + 1, hi⟩).low|
        = (bars.get ⟨k + 1, hi⟩).high - (bars.get ⟨k + 1, hi⟩).low :=
      abs_of_nonneg (by linarith)
    have hidx : bars.get ⟨k + 1 - 1, by omega⟩ = bars.get ⟨k, by omega⟩ := rfl
    have habs' : |bars[k + 1].high - bars[k + 1].low|
        = bars[k + 1].high - bars[k + 1].low := habs
    simp [trRow, omax2, hidx]
    rw [habs']

/-- A single bar with a positive range. -/
def barSingle : List Bar := [⟨0, 9, 10, 8, 9⟩]

/-- Counterexample to claim C3 as stated: at index 0 the code's True Range
is the present value `high - low = 2` (pandas skipna max), not
"not yet computable" as the claim asserts. -/
theorem c3_true_range_index0_counterexample :
    nth (true_range (highs barSingle) (lows barSingle) (closes barSingle)) 0
        = some 2 ∧
      nth (true_range (highs barSingle) (lows barSingle) (closes barSingle)) 0
        ≠ none := by
  constructor
  · with_unfolding_all decide
  · with_unfolding_all decide

/-- Two bars used to instantiate the True Range and DM theorems. -/
def barsTwo : List Bar := [⟨0, 9, 10, 8, 9⟩, ⟨1, 9, 11, 7, 9⟩]

theorem c3_true_range_values_witness :
    BarInv barsTwo ∧
      nth (true_range (highs barsTwo) (lows barsTwo) (closes barsTwo)) 0 = some 2 ∧
      nth (true_range (highs barsTwo) (lows barsTwo) (closes barsTwo)) 1 = some 4 := by
  have hinv : BarInv barsTwo := by with_unfolding_all decide
  refine ⟨hinv, ?_, ?_⟩
  · rw [(c3_true_range_values barsTwo hinv).1 (by norm_num [barsTwo])]
    with_unfolding_all decide
  · rw [(c3_true_range_values barsTwo hinv).2 1 (by norm_num [barsTwo]) (le_refl 1)]
    with_unfolding_all decide

/-! ### C4: direction classification -/

/-- Counterexample to claim C4 as stated: a snapshot with defined close
`201/2`, reference MA `100`, and slope `1` satisfies `close > MA ∧ slope ≥ 0`
(the claim predicts `Up`), yet the code — which classifies by the window
return against a ±1 % threshold and never consults the MA level — returns
`Sideways / Mixed` for a window starting at `100`. -/
theorem c4_direction_counterexample :
    direction_label (some 100) (some (201 / 2)) (some 1)
        = "Direction: Sideways / Mixed" ∧
      claimedDirection (201 / 2) 100 1 = "Direction: Up" ∧
      (201 / 2 : ℚ) > 100 ∧ (0 : ℚ) ≤ 1 := by
  refine ⟨?_, ?_, by norm_num, by norm_num⟩
  · with_unfolding_all decide
  · with_unfolding_all decide

/-- Claim C4, corrected to the code's actual rule: with start close `s > 0`,
end close and slope defined, the label is `Up` iff the window return exceeds
+1 % (`e > s·101/100`) and the slope is nonnegative, `Down` iff the return is
below −1 % and the slope is nonpositive, else `Sideways / Mixed`; the
close-versus-MA comparison of the claim plays no part. -/
theorem c4_direction_label_characterization (s e m : ℚ) (hs : 0 < s) :
    direction_label (some s) (some e) (some m)
      = (if s * (101 / 100) < e ∧ 0 ≤ m then "Direction: Up"
        else if e < s * (99 / 100) ∧ m ≤ 0 then "Direction: Down"
        else "Direction: Sideways / Mixed") := by
  have hup : (e / s - 1 > 1 / 100) ↔ s * (101 / 100) < e := by
    rw [gt_iff_lt, lt_sub_iff_add_lt]
    rw [show (1 : ℚ) / 100 + 1 = 101 / 100 by norm_num]
    rw [div_lt_div_iff₀ (by norm_num : (0:ℚ) < 100) hs]
    constructor <;> intro h <;> nlinarith
  have hdn : (e / s - 1 < -(1 / 100)) ↔ e < s * (99 / 100) := by
    rw [sub_lt_iff_lt_add]
    rw [show -(1 / 100) + 1 = (99 : ℚ) / 100 by norm_num]
    rw [div_lt_div_iff₀ hs (by norm_num : (0:ℚ) < 100)]
    constructor <;> intro h <;> nlinarith
  have hok : (slopeOkUp (some m) = true) ↔ 0 ≤ m := by simp [slopeOkUp]
  have hok2 : (slopeOkDown (some m) = true) ↔ m ≤ 0 := by simp [slopeOkDown]
  simp only [direction_label]
  simp only [hup, hdn, hok, hok2]

theorem c4_direction_label_characterization_witness :
    (0 : ℚ) < 100 ∧
      direction_label (some 100) (some 102) (some 0)
        = (if (100 : ℚ) * (101 / 100) < 102 ∧ (0 : ℚ) ≤ 0 then "Direction: Up"
          else if (102 : ℚ) < 100 * (99 / 100) ∧ (0 : ℚ) ≤ 0 then "Direction: Down"
          else "Direction: Sideways / Mixed") := by
  refine ⟨by norm_num, ?_⟩
  have h := c4_direction_label_characterization 100 102 0 (by norm_num)
  simpa using h

/-! ### C5: ATR as percentage of close -/

theorem length_atr14Col (bars : List Bar) : (atr14Col bars).length = bars.length := by
  simp [atr14Col, atr, length_rollingMean, length_true_range, length_highs,
    length_lows, length_closes]

/-- Counterexample to claim C5 as stated: over fourteen identical bars with
`high = 10`, `low = 8`, `close = 9`, the stored `Atr_pct` at index 13 is the
fraction `2/9 = ATR/close`, not `ATR/close × 100 = 200/9` as the claim
asserts (the `× 100` happens only in the display layer). -/
theorem c5_atr_pct_counterexample :
    nth (atr14Col barsRange) 13 = some 2 ∧
      nthD 0 (closes barsRange) 13 = 9 ∧
      nth (atrPctCol barsRange) 13 = some (2 / 9) ∧
      (2 / 9 : ℚ) ≠ 2 / 9 * 100 := by
  refine ⟨?_, ?_, ?_, by norm_num⟩
  · with_unfolding_all decide
  · with_unfolding_all decide
  · with_unfolding_all decide

/-- Claim C5, corrected: wherever `Atr14` is defined and the close is
nonzero, the stored `Atr_pct` column equals `ATR / close` — the plain
fraction, with no `× 100`. -/
theorem c5_atr_pct_fraction (bars : List Bar) (i : ℕ) (a c : ℚ)
    (ha : nth (atr14Col bars) i = some a)
    (hc : nthD 0 (closes bars) i = c) (hcz : c ≠ 0) :
    nth (atrPctCol bars) i = some (a / c) := by
  have hi : i < bars.length := by
    have := nth_lt_of_ne_none _ i (by rw [ha]; simp)
    rwa [length_atr14Col] at this
  have h1 : i < (atr14Col bars).length := by rw [length_atr14Col]; omega
  have h2 : i < ((closes bars).map some).length := by
    rw [List.length_map, length_closes]; omega
  rw [atrPctCol, nth, nthD_zipWith none none none ediv _ _ i h1 h2]
  have hcl : i < (closes bars).length := by rw [length_closes]; omega
  rw [nthD_map 0 none some _ i hcl, hc]
  rw [nth] at ha
  rw [ha, ediv, if_neg hcz]

theorem c5_atr_pct_fraction_witness :
    nth (atr14Col barsRange) 13 = some 2 ∧ nthD 0 (closes barsRange) 13 = 9 ∧
      (9 : ℚ) ≠ 0 ∧ nth (atrPctCol barsRange) 13 = some (2 / 9) := by
  have h1 : nth (atr14Col barsRange) 13 = some 2 := by with_unfolding_all decide
  have h2 : nthD 0 (closes barsRange) 13 = 9 := by with_unfolding_all decide
  exact ⟨h1, h2, by norm_num,
    c5_atr_pct_fraction barsRange 13 2 9 h1 h2 (by norm_num)⟩

/-! ### C9: trend-strength boundaries -/

/-- Claim C9: for a defined ADX value the label is `Weak` on `(-∞, 18)`,
`Medium` on `[18, 25)` and `Strong` on `[25, ∞)`, with half-open boundaries;
in particular 18 is `Medium` and 25 is `Strong`. -/
theorem c9_trend_strength_boundaries (v : ℚ) :
    (trend_strength_label (some v) = "Trend strength: Weak" ↔ v < 18) ∧
    (trend_strength_label (some v) = "Trend strength: Medium" ↔ 18 ≤ v ∧ v < 25) ∧
    (trend_strength_label (some v) = "Trend strength: Strong" ↔ 25 ≤ v) ∧
    trend_strength_label (some 18) = "Trend strength: Medium" ∧
    trend_strength_label (some 25) = "Trend strength: Strong" := by
  refine ⟨?_, ?_, ?_, by with_unfolding_all decide, by with_unfolding_all decide⟩
  · simp only [trend_strength_label]
    split_ifs with h1 h2
    · constructor
      · intro hh; exact absurd hh (by decide)
      · intro hh; exfalso; linarith
    · constructor
      · intro hh; exact absurd hh (by decide)
      · intro hh; exfalso; linarith
    · constructor
      · intro _; linarith [not_le.mp h2]
      · intro _; rfl
  · simp only [trend_strength_label]
    split_ifs with h1 h2
    · constructor
      · intro hh; exact absurd hh (by decide)
      · intro hh; exfalso; linarith [hh.2]
    · constructor
      · intro _; exact ⟨h2, not_le.mp h1⟩
      · intro _; rfl
    · constructor
      · intro hh; exact absurd hh (by decide)
      · intro hh; exact absurd hh.1 h2
  · simp only [trend_strength_label]
    split_ifs with h1 h2
    · constructor
      · intro _; exact h1
      · intro _; rfl
    · constructor
      · intro hh; exact absurd hh (by decide)
      · intro hh; exact absurd hh h1
    · constructor
      · intro hh; exact absurd hh (by decide)
      · intro hh; exact absurd hh h1

/-! ### C10: directional movements exclude each other -/

/-- Claim C10: at every index at most one of `+DM`, `-DM` is nonzero, and
when the up-move and down-move are equal (both defined with the same value)
both are zero — the strict inequalities in `np.where` break the tie to
`(0, 0)`. -/
theorem c10_dm_exclusivity (bars : List Bar) :
    (∀ i, i < bars.length →
      nthD 0 (plus_dm (highs bars) (lows bars)) i = 0 ∨
      nthD 0 (minus_dm (highs bars) (lows bars)) i = 0) ∧
    (∀ i u, nth (up_move (highs bars)) i = some u →
      nth (down_move (lows bars)) i = some u →
      nthD 0 (plus_dm (highs bars) (lows bars)) i = 0 ∧
      nthD 0 (minus_dm (highs bars) (lows bars)) i = 0) := by
  constructor
  · intro i hi
    have hu : i < (up_move (highs bars)).length := by
      rw [length_up_move, length_highs]; omega
    have hd : i < (down_move (lows bars)).length := by
      rw [length_down_move, length_lows]; omega
    rw [plus_dm, nthD_zipWith none none 0 _ _ _ i hu hd]
    rw [minus_dm, nthD_zipWith none none 0 _ _ _ i hu hd]
    rcases nthD none (up_move (highs bars)) i with _ | u <;>
      rcases nthD none (down_move (lows bars)) i with _ | d
    · left; rfl
    · left; rfl
    · left; rfl
    · by_cases hud : u > d
      · right
        simp only []
        rw [if_neg]
        intro hcnd
        exact absurd hcnd.1 (by push_neg; linarith)
      · left
        simp only []
        rw [if_neg]
        intro hcnd
        exact hud hcnd.1
  · intro i u hu hd
    have hiu : i < (up_move (highs bars)).length :=
      nth_lt_of_ne_none _ i (by rw [hu]; simp)
    have hid : i < (down_move (lows bars)).length :=
      nth_lt_of_ne_none _ i (by rw [hd]; simp)
    rw [nth] at hu hd
    constructor
    · rw [plus_dm, nthD_zipWith none none 0 _ _ _ i hiu hid, hu, hd]
      simp only []
      rw [if_neg]
      intro hcnd
      exact absurd hcnd.1 (lt_irrefl u)
    · rw [minus_dm, nthD_zipWith none none 0 _ _ _ i hiu hid, hu, hd]
      simp only []
      rw [if_neg]
      intro hcnd
      exact absurd hcnd.1 (lt_irrefl u)

theorem c10_dm_exclusivity_witness :
    (1 < barsTwo.length ∧
      nth (up_move (highs barsTwo)) 1 = some 1 ∧
      nth (down_move (lows barsTwo)) 1 = some 1) ∧
      (nthD 0 (plus_dm (highs barsTwo) (lows barsTwo)) 1 = 0 ∨
        nthD 0 (minus_dm (highs barsTwo) (lows barsTwo)) 1 = 0) ∧
      (nthD 0 (plus_dm (highs barsTwo) (lows barsTwo)) 1 = 0 ∧
        nthD 0 (minus_dm (highs barsTwo) (lows barsTwo)) 1 = 0) := by
  have h1 : nth (up_move (highs barsTwo)) 1 = some 1 := by with_unfolding_all decide
  have h2 : nth (down_move (lows barsTwo)) 1 = some 1 := by with_unfolding_all decide
  refine ⟨⟨by norm_num [barsTwo], h1, h2⟩, ?_, ?_⟩
  · exact (c10_dm_exclusivity barsTwo).1 1 (by norm_num [barsTwo])
  · exact (c10_dm_exclusivity barsTwo).2 1 1 h1 h2

/-! ### C6: exactly `window` bars -/

theorem rollingMeanAt_none_of_short (w : ℕ) (s : List (Option ℚ)) (i : ℕ)
    (h : i + 1 < w) : rollingMeanAt w s i = none := by
  rw [rollingMeanAt, if_neg]
  have h1 := filterMap_length_le (windowSlice w s i)
  have h2 := windowSlice_length_eq w s i
  have h3 : obsOf w s i = (windowSlice w s i).filterMap id := rfl
  rw [h3]
  omega

theorem rollingStdSqAt_none_of_short (w : ℕ) (s : List (Option ℚ)) (i : ℕ)
    (h : i + 1 < w) : rollingStdSqAt w s i = none := by
  rw [rollingStdSqAt, if_neg]
  have h1 := filterMap_length_le (windowSlice w s i)
  have h2 := windowSlice_length_eq w s i
  have h3 : obsOf w s i = (windowSlice w s i).filterMap id := rfl
  rw [h3]
  omega

theorem rollingMeanAt_isSome (w : ℕ) (s : List (Option ℚ)) (i : ℕ)
    (hi : i < s.length) (hw : w ≤ i + 1)
    (hdef : ∀ j, i + 1 - w ≤ j → j ≤ i → (nth s j).isSome) :
    (rollingMeanAt w s i).isSome := by
  rw [rollingMeanAt, if_pos]
  · simp
  · rw [obsOf_length_full w s i hi hw hdef]

theorem rollingStdSqAt_isSome (w : ℕ) (s : List (Option ℚ)) (i : ℕ)
    (hi : i < s.length) (hw : w ≤ i + 1)
    (hdef : ∀ j, i + 1 - w ≤ j → j ≤ i → (nth s j).isSome) :
    (rollingStdSqAt w s i).isSome := by
  rw [rollingStdSqAt, if_pos]
  · simp
  · rw [obsOf_length_full w s i hi hw hdef]

theorem length_pct_change (s : List ℚ) : (pct_change s).length = s.length := by
  simp [pct_change, length_shift1]

theorem nth_pct_change_zero (s : List ℚ) (h : s ≠ []) :
    nth (pct_change s) 0 = none := by
  have h0 : 0 < s.length := List.length_pos.mpr h
  have h1 : 0 < (shift1 s).length := by rw [length_shift1]; exact h0
  rw [pct_change, nth, nthD_zipWith none 0 none _ _ _ 0 h1 h0]
  have := nth_shift1_zero s h
  rw [nth] at this
  rw [this]
  rfl

theorem nth_pct_change_succ (s : List ℚ) (k : ℕ) (h : k + 1 < s.length)
    (hz : nthD 0 s k ≠ 0) :
    nth (pct_change s) (k + 1) = some (nthD 0 s (k + 1) / nthD 0 s k - 1) := by
  have h1 : k + 1 < (shift1 s).length := by rw [length_shift1]; exact h
  have h2 := nth_shift1_succ s k h
  rw [nth] at h2
  rw [pct_change, nth, nthD_zipWith none 0 none _ _ _ (k + 1) h1 h, h2]
  simp [Option.bind, hz]

theorem length_realized_vol (close : List ℚ) (w : ℕ) (ann : ℚ) :
    (realized_vol close w ann).length = close.length := by
  simp [realized_vol, length_rollingStdSq, length_pct_change]

/-- Claim C6, corrected on realized volatility: with exactly `w ≥ 2` bars,
the rolling mean of the closes and `ATR(w)` are defined at the last position
and nowhere earlier, but `realized_vol(close, w)` is "not yet computable" at
every position — including the last — because `pct_change` consumes one bar,
so the realized-volatility window never holds `w` returns. -/
theorem c6_window_definedness (bars : List Bar) (w : ℕ) (h2 : 2 ≤ w)
    (hlen : bars.length = w) :
    (∀ i, i + 1 < w → nth (rollingMean w ((closes bars).map some)) i = none ∧
      nth (atr (highs bars) (lows bars) (closes bars) w) i = none) ∧
    (nth (rollingMean w ((closes bars).map some)) (w - 1)).isSome ∧
    (nth (atr (highs bars) (lows bars) (closes bars) w) (w - 1)).isSome ∧
    (∀ i, nth (realized_vol (closes bars) w 252) i = none) := by
  have hclen : (closes bars).length = w := by rw [length_closes, hlen]
  have hmlen : ((closes bars).map some).length = w := by
    rw [List.length_map, hclen]
  have htlen : (true_range (highs bars) (lows bars) (closes bars)).length = w := by
    simp [length_true_range, length_highs, length_lows, length_closes, hlen]
  refine ⟨?_, ?_, ?_, ?_⟩
  · intro i hiw
    constructor
    · rw [rollingMean, nth, nthD_range_map none _ _ i (by omega)]
      exact rollingMeanAt_none_of_short w _ i hiw
    · rw [atr, rollingMean, nth, nthD_range_map none _ _ i (by omega)]
      exact rollingMeanAt_none_of_short w _ i hiw
  · rw [rollingMean, nth, nthD_range_map none _ _ (w - 1) (by omega)]
    apply rollingMeanAt_isSome w _ (w - 1) (by omega) (by omega)
    intro j _ hj2
    have hj : j < ((closes bars).map some).length := by omega
    rw [nth, nthD_map 0 none some _ j (by rw [hclen]; omega)]
    simp
  · rw [atr, rollingMean, nth, nthD_range_map none _ _ (w - 1) (by omega)]
    apply rollingMeanAt_isSome w _ (w - 1) (by omega) (by omega)
    intro j _ hj2
    have hj : j < (true_range (highs bars) (lows bars) (closes bars)).length := by
      omega
    exact true_range_mem_isSome _ _ _ _ (nthD_mem none _ j hj)
  · intro i
    have hplen : (pct_change (closes bars)).length = w := by
      rw [length_pct_change, hclen]
    by_cases hir : i < w
    · rw [realized_vol, nth,
        nthD_map none none _ _ i (by rw [length_rollingStdSq, hplen]; omega)]
      have hnth : nthD none (rollingStdSq w (pct_change (closes bars))) i
          = rollingStdSqAt w (pct_change (closes bars)) i := by
        rw [rollingStdSq, nthD_range_map none _ _ i (by rw [hplen]; omega)]
      rw [hnth]
      by_cases hshort : i + 1 < w
      · rw [rollingStdSqAt_none_of_short w _ i hshort]
        rfl
      · have hieq : i = w - 1 := by omega
        subst hieq
        have hslice : windowSlice w (pct_change (closes bars)) (w - 1)
            = pct_change (closes bars) := by
          rw [windowSlice]
          have : w - 1 + 1 = w := by omega
          rw [this]
          rw [show w - w = 0 by omega]
          rw [List.drop_zero]
          rw [← hplen, List.take_length]
        have hnone : none ∈ pct_change (closes bars) := by
          have hne : closes bars ≠ [] := by
            intro hx
            rw [hx] at hclen
            simp at hclen
            omega
          have h0 := nth_pct_change_zero (closes bars) hne
          rw [nth] at h0
          have := nthD_mem none (pct_change (closes bars)) 0 (by omega)
          rwa [h0] at this
        rw [rollingStdSqAt, if_neg]
        · rfl
        · have hlt := filterMap_length_lt_of_none _ hnone
          have h3 : obsOf w (pct_change (closes bars)) (w - 1)
              = (windowSlice w (pct_change (closes bars)) (w - 1)).filterMap id := rfl
          rw [h3, hslice]
          omega
    · rw [nth, nthD_eq_default none _ i (by rw [length_realized_vol, hclen]; omega)]

/-- Counterexample to claim C6 as stated: with exactly `w = 2` bars, the
realized-volatility series is "not yet computable" even at the last position
(the claim asserts the last position of every `w`-windowed indicator is
defined when exactly `w` bars are supplied). -/
theorem c6_realized_vol_window_counterexample :
    [(100 : ℚ), 102].length = 2 ∧
      nth (realized_vol [(100 : ℚ), 102] 2 252) 1 = none := by
  constructor
  · with_unfolding_all decide
  · with_unfolding_all decide

theorem c6_window_definedness_witness :
    (2 ≤ 2 ∧ barsTwo.length = 2) ∧
      nth (rollingMean 2 ((closes barsTwo).map some)) 0 = none ∧
      nth (atr (highs barsTwo) (lows barsTwo) (closes barsTwo) 2) 0 = none ∧
      (nth (rollingMean 2 ((closes barsTwo).map some)) 1).isSome ∧
      (nth (atr (highs barsTwo) (lows barsTwo) (closes barsTwo) 2) 1).isSome ∧
      nth (realized_vol (closes barsTwo) 2 252) 1 = none := by
  have hlen : barsTwo.length = 2 := by norm_num [barsTwo]
  have h := c6_window_definedness barsTwo 2 (le_refl 2) hlen
  refine ⟨⟨le_refl 2, hlen⟩, (h.1 0 (by norm_num)).1, (h.1 0 (by norm_num)).2,
    ?_, ?_, h.2.2.2 1⟩
  · simpa using h.2.1
  · simpa using h.2.2.1

/-! ### C7: the linear-slope estimate -/

theorem sum_zip_center (xs : List ℚ) (a b : ℚ) :
    ∀ ys : List ℚ, xs.length = ys.length →
      ((xs.zip ys).map fun p => (p.1 - a) * (p.2 - b)).sum
        = ((xs.zip ys).map fun p => p.1 * p.2).sum - a * ys.sum - b * xs.sum
          + (xs.length : ℚ) * (a * b) := by
  induction xs with
  | nil =>
    intro ys h
    have hys : ys = [] := List.eq_nil_of_length_eq_zero (by simpa using h.symm)
    subst hys
    simp
  | cons x xt ih =>
    intro ys h
    cases ys with
    | nil => simp at h
    | cons z zt =>
      have hlen : xt.length = zt.length := by simpa using h
      simp only [List.zip_cons_cons, List.map_cons, List.sum_cons, List.length_cons,
        List.sum_cons]
      rw [ih zt hlen]
      push_cast
      ring

theorem sum_map_center_sq (a : ℚ) :
    ∀ xs : List ℚ,
      (xs.map fun x => (x - a) ^ 2).sum
        = (xs.map fun x => x * x).sum - 2 * a * xs.sum + (xs.length : ℚ) * (a * a) := by
  intro xs
  induction xs with
  | nil => simp
  | cons x xt ih =>
    simp only [List.map_cons, List.sum_cons, List.length_cons]
    rw [ih]
    push_cast
    ring

theorem length_idxs (y : List ℚ) : (idxs y).length = y.length := by
  rw [idxs, List.length_map, List.length_range]

/-- The normal-equations form used by `np.polyfit` agrees with the spec's
centred covariance-over-variance form of the OLS slope. -/
theorem olsSlope_eq_olsSlopeSpec (y : List ℚ) : olsSlope y = olsSlopeSpec y := by
  rcases y.eq_nil_or_concat with hnil | ⟨_, _, hconcat⟩
  · subst hnil
    simp [olsSlope, olsSlopeSpec, idxs]
  · have hn0 : (y.length : ℚ) ≠ 0 := by
      have : y ≠ [] := by
        rw [hconcat]; simp
      have hpos : 0 < y.length := List.length_pos.mpr this
      exact_mod_cast Nat.pos_iff_ne_zero.mp hpos ∘ fun h => by exact_mod_cast h
    set n : ℚ := (y.length : ℚ) with hn
    set sx := (idxs y).sum with hsx
    set sy := y.sum with hsy
    set sxy := (((idxs y).zip y).map fun p => p.1 * p.2).sum with hsxy
    set sxx := ((idxs y).map fun x => x * x).sum with hsxx
    have hnum : (((idxs y).zip y).map fun p => (p.1 - sx / n) * (p.2 - sy / n)).sum
        = sxy - sx * sy / n := by
      rw [sum_zip_center (idxs y) (sx / n) (sy / n) y (by rw [length_idxs])]
      rw [length_idxs, ← hn, ← hsx, ← hsy, ← hsxy]
      field_simp
      ring
    have hden : ((idxs y).map fun x => (x - sx / n) ^ 2).sum = sxx - sx * sx / n := by
      rw [sum_map_center_sq (sx / n) (idxs y)]
      rw [length_idxs, ← hn, ← hsx, ← hsxx]
      field_simp
      ring
    rw [olsSlope, olsSlopeSpec, ← hn, ← hsx, ← hsy, ← hsxy, ← hsxx, hnum, hden]
    have e1 : n * sxy - sx * sy = n * (sxy - sx * sy / n) := by
      field_simp
      ring
    have e2 : n * sxx - sx * sx = n * (sxx - sx * sx / n) := by
      field_simp
      ring
    rw [e1, e2, mul_div_mul_left _ _ hn0]

/-- Claim C7, corrected: `slope` is "not yet computable" exactly when fewer
than `max(5, lookback // 2)` values survive `dropna().tail(lookback)` — that
is, when `min(#non-missing in the whole series, lookback)` is below the
threshold, where the claim instead counts the non-missing values among the
last `lookback` positions; otherwise it is the OLS slope of the last
`lookback` non-missing values of the whole series against `0..n-1`. -/
theorem c7_slope_characterization (s : List (Option ℚ)) (lb : ℕ) :
    (slope s lb = none ↔ min (s.filterMap id).length lb < max 5 (lb / 2)) ∧
    (max 5 (lb / 2) ≤ min (s.filterMap id).length lb →
      slope s lb = some (olsSlopeSpec
        ((s.filterMap id).drop ((s.filterMap id).length - lb)))) := by
  have hy2len : ((s.filterMap id).drop ((s.filterMap id).length - lb)).length
      = min (s.filterMap id).length lb := by
    rw [List.length_drop]
    omega
  constructor
  · by_cases hc : ((s.filterMap id).drop ((s.filterMap id).length - lb)).length
        < max 5 (lb / 2)
    · rw [slope, if_pos hc]
      constructor
      · intro _
        omega
      · intro _
        rfl
    · rw [slope, if_neg hc]
      constructor
      · intro h
        exact Option.noConfusion h
      · intro h
        exfalso
        omega
  · intro hge
    have hc : ¬ ((s.filterMap id).drop ((s.filterMap id).length - lb)).length
        < max 5 (lb / 2) := by omega
    rw [slope, if_neg hc, olsSlope_eq_olsSlopeSpec]

/-- Five present values followed by five missing ones. -/
def sGap : List (Option ℚ) :=
  [some 1, some 2, some 3, some 4, some 5, none, none, none, none, none]

/-- Counterexample to claim C7 as stated: the last `lookback = 5` positions
of `sGap` hold no non-missing value at all, so the claim's condition
("fewer than `max(5, 5/2) = 5` non-missing values among the last 5
positions") demands "not yet computable" — yet the code drops the `NaN`s
first and fits the slope `1` through the five earlier values. -/
theorem c7_slope_dropna_counterexample :
    slope sGap 5 = some 1 ∧ (sGap.drop (sGap.length - 5)).filterMap id = [] := by
  constructor
  · with_unfolding_all decide
  · with_unfolding_all decide

/-- Five present values, no missing ones. -/
def sFive : List (Option ℚ) := [some 1, some 2, some 3, some 4, some 5]

theorem c7_slope_characterization_witness :
    max 5 (5 / 2) ≤ min (sFive.filterMap id).length 5 ∧
      slope sFive 5 = some (olsSlopeSpec
        ((sFive.filterMap id).drop ((sFive.filterMap id).length - 5))) := by
  have hge : max 5 (5 / 2) ≤ min (sFive.filterMap id).length 5 := by
    with_unfolding_all decide
  exact ⟨hge, (c7_slope_characterization sFive 5).2 hge⟩

/-! ### C8: volatility-proxy merge and spread -/

theorem length_vixCol (bars : List Bar) (vix : List (Int × ℚ)) :
    (vixCol bars vix).length = bars.length := by simp [vixCol]

theorem length_ivProxyCol (bars : List Bar) (vix : List (Int × ℚ)) :
    (ivProxyCol bars vix).length = bars.length := by
  simp [ivProxyCol, length_vixCol]

theorem length_rv20Col (bars : List Bar) : (rv20Col bars).length = bars.length := by
  simp [rv20Col, length_realized_vol, length_closes]

theorem length_ivMinusRv20Col (bars : List Bar) (vix : List (Int × ℚ)) :
    (ivMinusRv20Col bars vix).length = bars.length := by
  simp [ivMinusRv20Col, length_ivProxyCol, length_rv20Col]

theorem nth_maCol_isSome (bars : List Bar) (w i : ℕ) (hw : w ≤ i + 1)
    (hi : i < bars.length) :
    (nth (rollingMean w ((closes bars).map some)) i).isSome := by
  have hmlen : ((closes bars).map some).length = bars.length := by
    rw [List.length_map, length_closes]
  rw [rollingMean, nth, nthD_range_map none _ _ i (by omega)]
  apply rollingMeanAt_isSome w _ i (by omega) hw
  intro j _ hj2
  rw [nth, nthD_map 0 none some _ j (by rw [length_closes]; omega)]
  simp

theorem rollingSumAt_isSome (w : ℕ) (s : List (Option ℚ)) (i : ℕ)
    (hi : i < s.length) (hw : w ≤ i + 1)
    (hdef : ∀ j, i + 1 - w ≤ j → j ≤ i → (nth s j).isSome) :
    (rollingSumAt w s i).isSome := by
  rw [rollingSumAt, if_pos]
  · simp
  · rw [obsOf_length_full w s i hi hw hdef]

/-- Claim C8: with the proxy series entirely missing the spread column is
"not yet computable" everywhere while the non-proxy indicators (moving
averages, ATR, realized volatility, ADX) are still computed wherever their
own inputs allow — for ADX(14) that means every index whose 14-wide DX
window lies inside the series and is non-degenerate (no zero rolling TR sum
and DM sums not both zero, the conditions under which the code's unguarded
divisions stay away from `0/0`); wherever proxy and realized volatility are
both defined the spread is `proxy/100 − rv`, and it is undefined wherever
either input is. -/
theorem c8_missing_proxy_spread (bars : List Bar)
    (hcl : ∀ b ∈ bars, 0 < b.close) :
    (∀ i, nth (ivMinusRv20Col bars []) i = none) ∧
    (∀ i, 19 ≤ i → i < bars.length → (nth (ma20Col bars) i).isSome) ∧
    (∀ i, 49 ≤ i → i < bars.length → (nth (ma50Col bars) i).isSome) ∧
    (∀ i, 199 ≤ i → i < bars.length → (nth (ma200Col bars) i).isSome) ∧
    (∀ i, 13 ≤ i → i < bars.length → (nth (atr14Col bars) i).isSome) ∧
    (∀ i, 20 ≤ i → i < bars.length → (nth (rv20Col bars) i).isSome) ∧
    (∀ i, 26 ≤ i → i < bars.length →
      (∀ j, i + 1 - 14 ≤ j → j ≤ i →
        nth (tr_n (highs bars) (lows bars) (closes bars) 14) j ≠ some 0 ∧
        ¬(nth (plus_dm_n (highs bars) (lows bars) 14) j = some 0 ∧
          nth (minus_dm_n (highs bars) (lows bars) 14) j = some 0)) →
      (nth (adx14Col bars) i).isSome) ∧
    (∀ vix : List (Int × ℚ), ∀ i, ∀ p r : ℚ,
      nth (vixCol bars vix) i = some p → nth (rv20Col bars) i = some r →
      nth (ivMinusRv20Col bars vix) i = some (p / 100 - r)) ∧
    (∀ vix : List (Int × ℚ), ∀ i,
      nth (vixCol bars vix) i = none ∨ nth (rv20Col bars) i = none →
      nth (ivMinusRv20Col bars vix) i = none) := by
  have hvix_none : ∀ i, i < bars.length → nth (vixCol bars []) i = none := by
    intro i hi
    rw [vixCol, nth, nthD_map bar0 none _ bars i hi]
    rfl
  have hproxy : ∀ (vix : List (Int × ℚ)) i, i < bars.length →
      nth (ivProxyCol bars vix) i
        = Option.map (fun v => v / 100) (nth (vixCol bars vix) i) := by
    intro vix i hi
    rw [ivProxyCol, nth, nth, nthD_map none none _ _ i (by rw [length_vixCol]; omega)]
  have hspread : ∀ (vix : List (Int × ℚ)) i, i < bars.length →
      nth (ivMinusRv20Col bars vix) i
        = osub (nth (ivProxyCol bars vix) i) (nth (rv20Col bars) i) := by
    intro vix i hi
    rw [ivMinusRv20Col, nth, nth, nth,
      nthD_zipWith none none none osub _ _ i
        (by rw [length_ivProxyCol]; omega) (by rw [length_rv20Col]; omega)]
  refine ⟨?_, ?_, ?_, ?_, ?_, ?_, ?_, ?_, ?_⟩
  · intro i
    by_cases hi : i < bars.length
    · rw [hspread [] i hi, hproxy [] i hi, hvix_none i hi]
      rfl
    · rw [nth, nthD_eq_default none _ i (by rw [length_ivMinusRv20Col]; omega)]
  · intro i h1 h2
    exact nth_maCol_isSome bars 20 i (by omega) h2
  · intro i h1 h2
    exact nth_maCol_isSome bars 50 i (by omega) h2
  · intro i h1 h2
    exact nth_maCol_isSome bars 200 i (by omega) h2
  · intro i h1 h2
    have htlen : (true_range (highs bars) (lows bars) (closes bars)).length
        = bars.length := by
      simp [length_true_range, length_highs, length_lows, length_closes]
    rw [atr14Col, atr, rollingMean, nth, nthD_range_map none _ _ i (by omega)]
    apply rollingMeanAt_isSome 14 _ i (by omega) (by omega)
    intro j _ hj2
    exact true_range_mem_isSome _ _ _ _ (nthD_mem none _ j (by omega))
  · intro i h1 h2
    have hplen : (pct_change (closes bars)).length = bars.length := by
      rw [length_pct_change, length_closes]
    rw [rv20Col, realized_vol, nth,
      nthD_map none none _ _ i (by rw [length_rollingStdSq]; omega)]
    have hnth : nthD none (rollingStdSq 20 (pct_change (closes bars))) i
        = rollingStdSqAt 20 (pct_change (closes bars)) i := by
      rw [rollingStdSq, nthD_range_map none _ _ i (by omega)]
    rw [hnth]
    have hdef : ∀ j, i + 1 - 20 ≤ j → j ≤ i →
        (nth (pct_change (closes bars)) j).isSome := by
      intro j hj1 hj2
      obtain ⟨k, rfl⟩ : ∃ k, j = k + 1 := ⟨j - 1, by omega⟩
      have hk : k < bars.length := by omega
      have hkc : nthD 0 (closes bars) k = (bars.get ⟨k, hk⟩).close :=
        nthD_closes bars k hk
      have hkpos : 0 < nthD 0 (closes bars) k := by
        rw [hkc]
        exact hcl _ (bars.get_mem _ _)
      rw [nth_pct_change_succ (closes bars) k (by rw [length_closes]; omega)
        (ne_of_gt hkpos)]
      simp
    have := rollingStdSqAt_isSome 20 (pct_change (closes bars)) i
      (by omega) (by omega) hdef
    obtain ⟨v, hv⟩ := Option.isSome_iff_exists.mp this
    rw [hv]
    simp
  · intro i h26 hi hnd
    have hdxlen : (dxSeries (highs bars) (lows bars) (closes bars) 14).length
        = bars.length := length_dxSeries bars 14
    have htlen2 : (true_range (highs bars) (lows bars) (closes bars)).length
        = bars.length := by
      simp [length_true_range, length_highs, length_lows, length_closes]
    rw [adx14Col, adx, rollingMean, nth, nthD_range_map none _ _ i (by omega)]
    apply rollingMeanAt_isSome 14 _ i (by omega) (by omega)
    intro j hj1 hj2
    have hjb : j < bars.length := by omega
    obtain ⟨hne, hdm⟩ := hnd j hj1 hj2
    have htr_some : (nth (tr_n (highs bars) (lows bars) (closes bars) 14) j).isSome := by
      rw [tr_n, nth_rollingSum _ _ j (by omega)]
      apply rollingSumAt_isSome 14 _ j (by omega) (by omega)
      intro k _ _
      exact true_range_mem_isSome _ _ _ _ (nthD_mem none _ k (by omega))
    obtain ⟨t, ht⟩ := Option.isSome_iff_exists.mp htr_some
    have htne : t ≠ 0 := by
      intro h0
      rw [h0] at ht
      exact hne ht
    have ht0 : 0 ≤ t := by
      have hmem := nthD_mem none (tr_n (highs bars) (lows bars) (closes bars) 14) j
        (by rw [length_tr_n]; omega)
      exact tr_n_mem_nonneg bars 14 _ hmem t ht
    have hplen2 : ((plus_dm (highs bars) (lows bars)).map some).length
        = bars.length := by
      rw [List.length_map, length_plus_dm, length_highs, length_lows]; omega
    have hmlen2 : ((minus_dm (highs bars) (lows bars)).map some).length
        = bars.length := by
      rw [List.length_map, length_minus_dm, length_highs, length_lows]; omega
    have hp_some : (nth (plus_dm_n (highs bars) (lows bars) 14) j).isSome := by
      rw [plus_dm_n, nth_rollingSum _ _ j (by omega)]
      apply rollingSumAt_isSome 14 _ j (by omega) (by omega)
      intro k _ _
      rw [nth, nthD_map 0 none some _ k
        (by rw [length_plus_dm, length_highs, length_lows]; omega)]
      simp
    have hq_some : (nth (minus_dm_n (highs bars) (lows bars) 14) j).isSome := by
      rw [minus_dm_n, nth_rollingSum _ _ j (by omega)]
      apply rollingSumAt_isSome 14 _ j (by omega) (by omega)
      intro k _ _
      rw [nth, nthD_map 0 none some _ k
        (by rw [length_minus_dm, length_highs, length_lows]; omega)]
      simp
    obtain ⟨p, hp'⟩ := Option.isSome_iff_exists.mp hp_some
    obtain ⟨q, hq'⟩ := Option.isSome_iff_exists.mp hq_some
    have hp0 : 0 ≤ p := by
      have hmem := nthD_mem none (plus_dm_n (highs bars) (lows bars) 14) j
        (by rw [length_plus_dm_n]; omega)
      exact plus_dm_n_mem_nonneg bars 14 _ hmem p hp'
    have hq0 : 0 ≤ q := by
      have hmem := nthD_mem none (minus_dm_n (highs bars) (lows bars) 14) j
        (by rw [length_minus_dm_n]; omega)
      exact minus_dm_n_mem_nonneg bars 14 _ hmem q hq'
    have hpqne : p + q ≠ 0 := by
      intro hz
      have hp00 : p = 0 := by linarith
      have hq00 : q = 0 := by linarith
      rw [hp00] at hp'
      rw [hq00] at hq'
      exact hdm ⟨hp', hq'⟩
    have hpdi : nth (plus_di (highs bars) (lows bars) (closes bars) 14) j
        = some (100 * (p / t)) := by
      rw [plus_di, nth, nthD_zipWith none none none _ _ _ j
        (by rw [length_plus_dm_n]; omega) (by rw [length_tr_n]; omega)]
      rw [nth] at hp' ht
      rw [hp', ht]
      simp [ediv, htne]
    have hmdi : nth (minus_di (highs bars) (lows bars) (closes bars) 14) j
        = some (100 * (q / t)) := by
      rw [minus_di, nth, nthD_zipWith none none none _ _ _ j
        (by rw [length_minus_dm_n]; omega) (by rw [length_tr_n]; omega)]
      rw [nth] at hq' ht
      rw [hq', ht]
      simp [ediv, htne]
    rw [dxSeries, nth, nthD_zipWith none none none _ _ _ j
      (by rw [length_plus_di]; omega) (by rw [length_minus_di]; omega)]
    rw [nth] at hpdi hmdi
    rw [hpdi, hmdi]
    have hsum_ne : 100 * (p / t) + 100 * (q / t) ≠ 0 := by
      have heq : 100 * (p / t) + 100 * (q / t) = 100 * ((p + q) / t) := by
        ring
      rw [heq]
      exact mul_ne_zero (by norm_num) (div_ne_zero hpqne htne)
    simp [osub, oadd, ediv, hsum_ne]
  · intro vix i p r hp hr
    have hi : i < bars.length := by
      have := nth_lt_of_ne_none _ i (by rw [hp]; simp)
      rwa [length_vixCol] at this
    rw [hspread vix i hi, hproxy vix i hi, hp, hr]
    rfl
  · intro vix i hor
    by_cases hi : i < bars.length
    · rw [hspread vix i hi, hproxy vix i hi]
      rcases hor with hv | hv
      · rw [hv]
        rfl
      · rw [hv]
        rcases Option.map (fun v => v / 100) (nth (vixCol bars vix) i) with _ | q
        · rfl
        · rfl
    · rw [nth, nthD_eq_default none _ i (by rw [length_ivMinusRv20Col]; omega)]

/-- 201 constant unit bars (timestamps `0..200`). -/
def bars201 : List Bar := (List.range 201).map fun k : ℕ => ⟨(k : Int), 1, 1, 1, 1⟩

theorem c8_missing_proxy_spread_witness :
    (∀ b ∈ bars201, 0 < b.close) ∧ (∀ b ∈ barsUp, 0 < b.close) ∧
      nth (ivMinusRv20Col bars201 []) 0 = none ∧
      nth (ivMinusRv20Col bars201 []) 200 = none ∧
      (nth (ma20Col bars201) 200).isSome ∧
      (nth (ma50Col bars201) 200).isSome ∧
      (nth (ma200Col bars201) 200).isSome ∧
      (nth (atr14Col bars201) 200).isSome ∧
      (nth (rv20Col bars201) 200).isSome ∧
      (nth (adx14Col barsUp) 26).isSome ∧
      nth (ivMinusRv20Col bars201 [((200 : Int), (15 : ℚ))]) 200
        = some (15 / 100 - 0) := by
  have hcl : ∀ b ∈ bars201, 0 < b.close := by with_unfolding_all decide
  have hclUp : ∀ b ∈ barsUp, 0 < b.close := by with_unfolding_all decide
  have h := c8_missing_proxy_spread bars201 hcl
  have hUp := c8_missing_proxy_spread barsUp hclUp
  have hp : nth (vixCol bars201 [((200 : Int), (15 : ℚ))]) 200 = some 15 := by
    with_unfolding_all decide
  have hr : nth (rv20Col bars201) 200 = some 0 := by
    with_unfolding_all decide
  have hbig : ∀ j ∈ List.range 27, 13 ≤ j →
      (nth (tr_n (highs barsUp) (lows barsUp) (closes barsUp) 14) j ≠ some 0 ∧
        ¬(nth (plus_dm_n (highs barsUp) (lows barsUp) 14) j = some 0 ∧
          nth (minus_dm_n (highs barsUp) (lows barsUp) 14) j = some 0)) := by
    with_unfolding_all decide
  have hadx : (nth (adx14Col barsUp) 26).isSome := by
    apply hUp.2.2.2.2.2.2.1 26 (le_refl 26) (by with_unfolding_all decide)
    intro j hj1 hj2
    exact hbig j (List.mem_range.mpr (by omega)) (by omega)
  exact ⟨hcl, hclUp, h.1 0, h.1 200,
    h.2.1 200 (by norm_num) (by norm_num [bars201]),
    h.2.2.1 200 (by norm_num) (by norm_num [bars201]),
    h.2.2.2.1 200 (by norm_num) (by norm_num [bars201]),
    h.2.2.2.2.1 200 (by norm_num) (by norm_num [bars201]),
    h.2.2.2.2.2.1 200 (by norm_num) (by norm_num [bars201]),
    hadx,
    h.2.2.2.2.2.2.2.1 [((200 : Int), (15 : ℚ))] 200 15 0 hp hr⟩

example : true_range [10] [8] [9] = [some 2] := by with_unfolding_all decide
example : nth (true_range [10, 11] [8, 7] [9, 9]) 1 = some 4 := by with_unfolding_all decide
example : slope [some 1, some 2, some 3, some 4, some 5] 5 = some 1 := by
  with_unfolding_all decide
example : trend_strength_label (some 18) = "Trend strength: Medium" := by
  with_unfolding_all decide

end App
